import Mathlib

/-!
Verification of the symmetry/clique extraction, the classical objective
function construction and the unitary-partitioning rotation of the Qondense
repository (source files `qondense/tapering.py` and `qreduce/cs_vqe.py`).

Pauli strings over `n` qubits are embedded as functions `Fin n → Pauli`.
The GF(2) symplectic toolkit used by the two source files
(`symplectic_toolkit`: symplectic encoding/decoding, Gaussian elimination to
reduced row-echelon form, kernel basis extraction, Pauli multiplication with
phase) is not among the source files; following the specification it is
modelled here by exact executable linear algebra over `ZMod 2`.
-/

namespace Qondense

/-- Binary row vectors of width `w` – the GF(2) symplectic representation. -/
abbrev V2 (w : ℕ) := Fin w → ZMod 2

theorem zmod2_add_self (a : ZMod 2) : a + a = 0 := by revert a; decide

theorem zmod2_ne_zero_iff (a : ZMod 2) : a ≠ 0 ↔ a = 1 := by revert a; decide

section Vectors

variable {w : ℕ}

/-- GF(2) dot product of two rows of width `w`. -/
def dotV (a b : V2 w) : ZMod 2 := ∑ i, a i * b i

theorem dotV_add_left (a b c : V2 w) : dotV (a + b) c = dotV a c + dotV b c := by
  simp [dotV, add_mul, Finset.sum_add_distrib]

theorem dotV_add_right (a b c : V2 w) : dotV a (b + c) = dotV a b + dotV a c := by
  simp [dotV, mul_add, Finset.sum_add_distrib]

theorem dotV_zero_left (b : V2 w) : dotV 0 b = 0 := by simp [dotV]

theorem dotV_zero_right (a : V2 w) : dotV a 0 = 0 := by simp [dotV]

theorem dotV_smul_right (s : ZMod 2) (a b : V2 w) : dotV a (s • b) = s * dotV a b := by
  simp only [dotV, Pi.smul_apply, smul_eq_mul, Finset.mul_sum]
  exact Finset.sum_congr rfl fun i _ => by ring

/-- The standard basis vector supported at column `c`. -/
def eVec (c : Fin w) : V2 w := fun j => if j = c then 1 else 0

theorem dotV_eVec_right (a : V2 w) (c : Fin w) : dotV a (eVec c) = a c := by
  simp [dotV, eVec, mul_ite, mul_one, mul_zero]

theorem dotV_list_sum_right (a : V2 w) (L : List (V2 w)) :
    dotV a L.sum = (L.map (dotV a)).sum := by
  induction L with
  | nil => simpa using dotV_zero_right a
  | cons p ps ih => simp [List.sum_cons, dotV_add_right, ih]

/-- Index of the first nonzero entry of a row, searching from column `k`
with `fuel` steps remaining (structural recursion, so it computes by `decide`). -/
def leadGo (a : V2 w) : ℕ → ℕ → Option (Fin w)
  | 0, _ => none
  | fuel + 1, k =>
    if h : k < w then
      if a ⟨k, h⟩ ≠ 0 then some ⟨k, h⟩ else leadGo a fuel (k + 1)
    else none

/-- The pivot (leading, i.e. least nonzero) column of a row, if any. -/
def leadO (a : V2 w) : Option (Fin w) := leadGo a w 0

theorem leadGo_some (a : V2 w) (fuel : ℕ) :
    ∀ (k : ℕ) (c : Fin w), leadGo a fuel k = some c →
      k ≤ c.val ∧ a c ≠ 0 ∧ ∀ j : Fin w, k ≤ j.val → j < c → a j = 0 := by
  induction fuel with
  | zero => intro k c h; simp [leadGo] at h
  | succ fuel ih =>
    intro k c h
    by_cases hk : k < w
    · rw [leadGo, dif_pos hk] at h
      by_cases hz : a ⟨k, hk⟩ ≠ 0
      · rw [if_pos hz] at h
        obtain rfl : (⟨k, hk⟩ : Fin w) = c := Option.some_injective _ h
        refine ⟨le_refl _, hz, ?_⟩
        intro j hj hjc
        exact absurd (lt_of_le_of_lt hj hjc) (lt_irrefl _)
      · rw [if_neg hz] at h
        obtain ⟨h1, h2, h3⟩ := ih (k + 1) c h
        refine ⟨le_trans (Nat.le_succ k) h1, h2, ?_⟩
        intro j hj hjc
        rcases Nat.eq_or_lt_of_le hj with heq | hlt
        · have : j = ⟨k, hk⟩ := Fin.ext heq.symm
          rw [this]
          exact not_not.mp hz
        · exact h3 j hlt hjc
    · rw [leadGo, dif_neg hk] at h
      exact absurd h (by simp)

theorem leadGo_none (a : V2 w) (fuel : ℕ) :
    ∀ (k : ℕ), w ≤ fuel + k → leadGo a fuel k = none →
      ∀ j : Fin w, k ≤ j.val → a j = 0 := by
  induction fuel with
  | zero =>
    intro k hw _ j hj
    exact absurd (lt_of_lt_of_le j.isLt hw) (not_lt.mpr (by simpa using hj))
  | succ fuel ih =>
    intro k hw h j hj
    by_cases hk : k < w
    · rw [leadGo, dif_pos hk] at h
      by_cases hz : a ⟨k, hk⟩ ≠ 0
      · rw [if_pos hz] at h; exact absurd h (by simp)
      · rw [if_neg hz] at h
        rcases Nat.eq_or_lt_of_le hj with heq | hlt
        · have : j = ⟨k, hk⟩ := Fin.ext heq.symm
          rw [this]; exact not_not.mp hz
        · exact ih (k + 1) (by omega) h j hlt
    · exact absurd (lt_of_le_of_lt hj j.isLt) (by omega)

theorem leadGo_intro (a : V2 w) (fuel : ℕ) :
    ∀ (k : ℕ) (c : Fin w), k ≤ c.val → c.val < k + fuel → a c ≠ 0 →
      (∀ j : Fin w, k ≤ j.val → j < c → a j = 0) →
      leadGo a fuel k = some c := by
  induction fuel with
  | zero => intro k c h1 h2 _ _; omega
  | succ fuel ih =>
    intro k c h1 h2 hc hmin
    have hk : k < w := lt_of_le_of_lt h1 c.isLt
    rw [leadGo, dif_pos hk]
    by_cases hz : a ⟨k, hk⟩ ≠ 0
    · rw [if_pos hz]
      rcases Nat.eq_or_lt_of_le h1 with heq | hlt
      · exact congrArg some (Fin.ext heq)
      · exact absurd (hmin ⟨k, hk⟩ (le_refl _) hlt) hz
    · rw [if_neg hz]
      have hne : k ≠ c.val := by
        intro heq
        exact hz (by rw [show (⟨k, hk⟩ : Fin w) = c from Fin.ext heq]; exact hc)
      refine ih (k + 1) c (by omega) (by omega) hc ?_
      intro j hj hjc
      exact hmin j (by omega) hjc

theorem leadO_some_ne {a : V2 w} {c : Fin w} (h : leadO a = some c) : a c ≠ 0 :=
  (leadGo_some a w 0 c h).2.1

theorem leadO_some_one {a : V2 w} {c : Fin w} (h : leadO a = some c) : a c = 1 :=
  (zmod2_ne_zero_iff _).mp (leadO_some_ne h)

theorem leadO_some_min {a : V2 w} {c : Fin w} (h : leadO a = some c) :
    ∀ j : Fin w, j < c → a j = 0 :=
  fun j hj => (leadGo_some a w 0 c h).2.2 j (Nat.zero_le _) hj

theorem leadO_none_eq_zero {a : V2 w} (h : leadO a = none) : a = 0 :=
  funext fun j => leadGo_none a w 0 (by omega) h j (Nat.zero_le _)

theorem leadO_intro {a : V2 w} {c : Fin w} (hc : a c ≠ 0)
    (hmin : ∀ j : Fin w, j < c → a j = 0) : leadO a = some c :=
  leadGo_intro a w 0 c (Nat.zero_le _) (by omega) hc fun j _ hj => hmin j hj

end Vectors

section Elimination

variable {w : ℕ}

/-- Reduce a row against a list of pivot rows: whenever the row has a `1`
in the pivot column of a stored row, add that stored row (GF(2) elimination). -/
def reduceRow : List (V2 w) → V2 w → V2 w
  | [], r => r
  | p :: ps, r =>
    match leadO p with
    | some c => if r c = 1 then reduceRow ps (r + p) else reduceRow ps r
    | none => reduceRow ps r

/-- Insert an already-reduced row: discard it if zero, otherwise clear its
pivot column from every stored row (back-substitution) and append it. -/
def insertReduced (rows : List (V2 w)) (r2 : V2 w) : List (V2 w) :=
  match leadO r2 with
  | none => rows
  | some c => (rows.map fun p => if p c = 1 then p + r2 else p) ++ [r2]

/-- One step of incremental Gauss–Jordan elimination over GF(2). -/
def insertRow (rows : List (V2 w)) (r : V2 w) : List (V2 w) :=
  insertReduced rows (reduceRow rows r)

/-- Mutual clearing of pivot columns between two rows. -/
def Cleared (r s : V2 w) : Prop :=
  (∀ c, leadO r = some c → s c = 0) ∧ (∀ c, leadO s = some c → r c = 0)

theorem Cleared.symm {r s : V2 w} (h : Cleared r s) : Cleared s r := ⟨h.2, h.1⟩

/-- The reduced row-echelon invariant: all stored rows are nonzero and every
pivot column is zero in every other stored row (hence pivots are distinct). -/
def RRinv (rows : List (V2 w)) : Prop :=
  (∀ r ∈ rows, ∃ c, leadO r = some c) ∧ rows.Pairwise Cleared

/-- Predicate stating that `v` is annihilated by every row of the list. -/
def kerP (L : List (V2 w)) (v : V2 w) : Prop := ∀ p ∈ L, dotV p v = 0

theorem reduceRow_fix {ps : List (V2 w)} {c : Fin w} (hz : ∀ q ∈ ps, q c = 0) :
    ∀ a : V2 w, reduceRow ps a c = a c := by
  induction ps with
  | nil => intro a; rfl
  | cons q qs ih =>
    intro a
    have hq : q c = 0 := hz q (List.mem_cons_self _ _)
    have hqs : ∀ q2 ∈ qs, q2 c = 0 := fun q2 hm => hz q2 (List.mem_cons_of_mem _ hm)
    rcases hl : leadO q with _ | c2 <;> simp only [reduceRow, hl]
    · exact ih hqs a
    · by_cases hb : a c2 = 1
      · rw [if_pos hb, ih hqs (a + q)]
        show a c + q c = a c
        rw [hq, add_zero]
      · rw [if_neg hb]; exact ih hqs a

theorem reduceRow_pivots_zero {rows : List (V2 w)} (hinv : RRinv rows) :
    ∀ p ∈ rows, ∀ c, leadO p = some c → ∀ r : V2 w, reduceRow rows r c = 0 := by
  induction rows with
  | nil => intro p hp; simp at hp
  | cons q qs ih =>
    intro p hp c hc r
    obtain ⟨hnz, hpw⟩ := hinv
    have hqsinv : RRinv qs :=
      ⟨fun r2 hm => hnz r2 (List.mem_cons_of_mem _ hm), (List.pairwise_cons.mp hpw).2⟩
    have hhead : ∀ r2 ∈ qs, Cleared q r2 := (List.pairwise_cons.mp hpw).1
    rcases List.mem_cons.mp hp with rfl | hmem
    · -- pivot of the head row: cleared by the head step, preserved after
      have hz : ∀ q2 ∈ qs, q2 c = 0 := fun q2 hm => (hhead q2 hm).1 c hc
      simp only [reduceRow, hc]
      by_cases hb : r c = 1
      · rw [if_pos hb, reduceRow_fix hz]
        show r c + p c = 0
        rw [hb, leadO_some_one hc]; decide
      · rw [if_neg hb, reduceRow_fix hz]
        exact not_not.mp fun h => hb ((zmod2_ne_zero_iff _).mp h)
    · -- pivot of a tail row: induction hypothesis on the tail
      rcases hl : leadO q with _ | c2 <;> simp only [reduceRow, hl]
      · exact ih hqsinv p hmem c hc r
      · by_cases hb : r c2 = 1
        · rw [if_pos hb]; exact ih hqsinv p hmem c hc (r + q)
        · rw [if_neg hb]; exact ih hqsinv p hmem c hc r

theorem reduceRow_dot {rows : List (V2 w)} {v : V2 w} (hk : kerP rows v) (r : V2 w) :
    dotV (reduceRow rows r) v = dotV r v := by
  induction rows generalizing r with
  | nil => rfl
  | cons q qs ih =>
    have hq : dotV q v = 0 := hk q (List.mem_cons_self _ _)
    have hqs : kerP qs v := fun p hm => hk p (List.mem_cons_of_mem _ hm)
    rcases hl : leadO q with _ | c2 <;> simp only [reduceRow, hl]
    · exact ih hqs r
    · by_cases hb : r c2 = 1
      · rw [if_pos hb, ih hqs (r + q), dotV_add_left, hq, add_zero]
      · rw [if_neg hb]; exact ih hqs r

theorem kerP_cons {q : V2 w} {qs : List (V2 w)} {v : V2 w} :
    kerP (q :: qs) v ↔ dotV q v = 0 ∧ kerP qs v := by
  constructor
  · intro h
    exact ⟨h q (List.mem_cons_self _ _), fun p hm => h p (List.mem_cons_of_mem _ hm)⟩
  · rintro ⟨h1, h2⟩ p hp
    rcases List.mem_cons.mp hp with rfl | hm
    · exact h1
    · exact h2 p hm

theorem insertRow_inv {rows : List (V2 w)} (hinv : RRinv rows) (r : V2 w) :
    RRinv (insertRow rows r) := by
  have hz : ∀ p ∈ rows, ∀ cp, leadO p = some cp → reduceRow rows r cp = 0 :=
    fun p hp cp hcp => reduceRow_pivots_zero hinv p hp cp hcp r
  rw [insertRow]
  set r2 := reduceRow rows r with hr2def
  rcases hl : leadO r2 with _ | c
  · rw [insertReduced, hl]; exact hinv
  · rw [insertReduced, hl]
    obtain ⟨hnz, hpw⟩ := hinv
    have hr2c : r2 c = 1 := leadO_some_one hl
    -- the pivot of every stored row is strictly below c, and survives the update
    have hlead : ∀ p ∈ rows, leadO (if p c = 1 then p + r2 else p) = leadO p := by
      intro p hp
      by_cases hb : p c = 1
      · rw [if_pos hb]
        obtain ⟨cp, hcp⟩ := hnz p hp
        have hcpz : r2 cp = 0 := hz p hp cp hcp
        have hne : cp ≠ c := fun h => leadO_some_ne hl (h ▸ hcpz)
        have hlt : cp < c := by
          rcases hne.lt_or_lt with h | h
          · exact h
          · exact absurd (leadO_some_min hcp c h) (by rw [hb]; decide)
        rw [hcp]
        refine leadO_intro ?_ ?_
        · show p cp + r2 cp ≠ 0
          rw [leadO_some_one hcp, hcpz]; decide
        · intro j hj
          show p j + r2 j = 0
          rw [leadO_some_min hcp j hj, leadO_some_min hl j (lt_trans hj hlt), add_zero]
      · rw [if_neg hb]
    constructor
    · -- all rows of the new list are nonzero
      intro p hp
      rcases List.mem_append.mp hp with hm | hm
      · obtain ⟨p0, hp0, rfl⟩ := List.mem_map.mp hm
        obtain ⟨cp, hcp⟩ := hnz p0 hp0
        exact ⟨cp, by rw [hlead p0 hp0, hcp]⟩
      · rw [List.mem_singleton.mp hm]; exact ⟨c, hl⟩
    · -- pairwise cleared pivots
      rw [List.pairwise_append]
      refine ⟨?_, List.pairwise_singleton _ _, ?_⟩
      · rw [List.pairwise_map]
        refine hpw.imp_of_mem ?_
        intro p q hp hq hcl
        constructor
        · intro d hd
          rw [hlead p hp] at hd
          have hq2 : q d = 0 := hcl.1 d hd
          have hr2d : r2 d = 0 := hz p hp d hd
          by_cases hb : q c = 1
          · rw [if_pos hb]; show q d + r2 d = 0; rw [hq2, hr2d, add_zero]
          · rw [if_neg hb]; exact hq2
        · intro d hd
          rw [hlead q hq] at hd
          have hp2 : p d = 0 := hcl.2 d hd
          have hr2d : r2 d = 0 := hz q hq d hd
          by_cases hb : p c = 1
          · rw [if_pos hb]; show p d + r2 d = 0; rw [hp2, hr2d, add_zero]
          · rw [if_neg hb]; exact hp2
      · intro x hx y hy
        obtain ⟨p0, hp0, rfl⟩ := List.mem_map.mp hx
        rw [List.mem_singleton.mp hy]
        constructor
        · intro d hd
          rw [hlead p0 hp0] at hd
          exact hz p0 hp0 d hd
        · intro d hd
          obtain rfl : c = d := Option.some_injective _ (hl.symm.trans hd)
          by_cases hb : p0 c = 1
          · rw [if_pos hb]; show p0 c + r2 c = 0; rw [hb, hr2c]; decide
          · rw [if_neg hb]
            exact not_not.mp fun h => hb ((zmod2_ne_zero_iff _).mp h)

theorem insertRow_ker {rows : List (V2 w)} {r v : V2 w} :
    kerP (insertRow rows r) v ↔ (kerP rows v ∧ dotV r v = 0) := by
  rw [insertRow]
  set r2 := reduceRow rows r with hr2def
  rcases hl : leadO r2 with _ | c
  · rw [insertReduced, hl]
    have hz : r2 = 0 := leadO_none_eq_zero hl
    constructor
    · intro h
      refine ⟨h, ?_⟩
      have := reduceRow_dot h r
      rw [← hr2def, hz, dotV_zero_left] at this
      exact this.symm
    · exact fun h => h.1
  · rw [insertReduced, hl]
    constructor
    · intro h
      have hr2v : dotV r2 v = 0 :=
        h r2 (List.mem_append.mpr (Or.inr (List.mem_singleton_self _)))
      have hker : kerP rows v := by
        intro p hp
        have hfp := h (if p c = 1 then p + r2 else p)
          (List.mem_append.mpr (Or.inl (List.mem_map_of_mem _ hp)))
        by_cases hb : p c = 1
        · rw [if_pos hb, dotV_add_left, hr2v, add_zero] at hfp
          exact hfp
        · rw [if_neg hb] at hfp; exact hfp
      refine ⟨hker, ?_⟩
      have := reduceRow_dot hker r
      rw [← hr2def, hr2v] at this
      exact this.symm
    · rintro ⟨hker, hr⟩
      have hr2v : dotV r2 v = 0 := by
        have := reduceRow_dot hker r
        rw [← hr2def] at this
        rw [this, hr]
      intro p hp
      rcases List.mem_append.mp hp with hm | hm
      · obtain ⟨p0, hp0, rfl⟩ := List.mem_map.mp hm
        by_cases hb : p0 c = 1
        · rw [if_pos hb, dotV_add_left, hker p0 hp0, hr2v, add_zero]
        · rw [if_neg hb]; exact hker p0 hp0
      · rw [List.mem_singleton.mp hm]; exact hr2v

theorem foldl_insertRow_inv {M : List (V2 w)} :
    ∀ {acc : List (V2 w)}, RRinv acc → RRinv (M.foldl insertRow acc) := by
  induction M with
  | nil => exact fun h => h
  | cons m M ih => exact fun h => ih (insertRow_inv h m)

theorem foldl_insertRow_ker {M : List (V2 w)} {v : V2 w} :
    ∀ {acc : List (V2 w)}, kerP (M.foldl insertRow acc) v ↔ (kerP acc v ∧ kerP M v) := by
  induction M with
  | nil =>
    intro acc
    simp only [List.foldl_nil]
    exact ⟨fun h => ⟨h, fun p hp => absurd hp (List.not_mem_nil p)⟩, fun h => h.1⟩
  | cons m M ih =>
    intro acc
    rw [List.foldl_cons, ih, insertRow_ker, kerP_cons]
    tauto

/-- Stable insertion sort (models the stable sorts used by the Python code:
`sorted` and `numpy.lexsort`). -/
def insertSorted (le : α → α → Bool) (x : α) : List α → List α
  | [] => [x]
  | y :: ys => if le x y then x :: y :: ys else y :: insertSorted le x ys

/-- Stable sort of a list by the boolean relation `le`. -/
def sortStable (le : α → α → Bool) (l : List α) : List α := l.foldr (insertSorted le) []

theorem insertSorted_perm (le : α → α → Bool) (x : α) (l : List α) :
    List.Perm (insertSorted le x l) (x :: l) := by
  induction l with
  | nil => exact List.Perm.refl _
  | cons y ys ih =>
    rw [insertSorted]
    by_cases hb : le x y
    · rw [if_pos hb]
    · rw [if_neg hb]
      exact (List.Perm.cons y ih).trans (List.Perm.swap x y ys)

theorem sortStable_perm (le : α → α → Bool) (l : List α) : List.Perm (sortStable le l) l := by
  induction l with
  | nil => exact List.Perm.refl _
  | cons y ys ih =>
    exact (insertSorted_perm le y (sortStable le ys)).trans (List.Perm.cons y ih)

/-- Numeric sort key: the pivot column of a row (`w` for a zero row). -/
def leadVal (r : V2 w) : ℕ :=
  match leadO r with
  | some c => c.val
  | none => w

/-- Reduced row-echelon form over GF(2): incremental Gauss–Jordan elimination
followed by ordering the (nonzero) rows by pivot column, as the
specification's `gf2_gaus_elim` (all-zero rows discarded). -/
def rref (M : List (V2 w)) : List (V2 w) :=
  sortStable (fun a b => decide (leadVal a ≤ leadVal b)) (M.foldl insertRow [])

theorem rref_perm (M : List (V2 w)) : List.Perm (rref M) (M.foldl insertRow []) :=
  sortStable_perm _ _

theorem rref_inv (M : List (V2 w)) : RRinv (rref M) := by
  have h0 : RRinv ([] : List (V2 w)) := ⟨by simp, List.Pairwise.nil⟩
  obtain ⟨hnz, hpw⟩ := foldl_insertRow_inv (M := M) h0
  exact ⟨fun r hr => hnz r ((rref_perm M).mem_iff.mp hr),
    ((rref_perm M).pairwise_iff fun h => h.symm).mpr hpw⟩

theorem rref_ker (M : List (V2 w)) (v : V2 w) : kerP (rref M) v ↔ kerP M v := by
  have h1 : kerP (rref M) v ↔ kerP (M.foldl insertRow []) v := by
    constructor <;> intro h p hp
    · exact h p ((rref_perm M).mem_iff.mpr hp)
    · exact h p ((rref_perm M).mem_iff.mp hp)
  rw [h1, foldl_insertRow_ker]
  exact ⟨fun h => h.2, fun h => ⟨fun p hp => absurd hp (List.not_mem_nil p), h⟩⟩

end Elimination

section Kernel

variable {w : ℕ}

/-- Pivot columns of a reduced matrix. -/
def pivotsOf (R : List (V2 w)) : List (Fin w) := R.filterMap leadO

/-- Non-pivot (free) columns, in ascending order. -/
def freeCols (R : List (V2 w)) : List (Fin w) :=
  (List.finRange w).filter fun j => decide (j ∉ pivotsOf R)

/-- The kernel-basis vector attached to the free column `f`: a `1` at `f`,
and at each pivot column the entry of the corresponding reduced row at `f`. -/
def kvec (R : List (V2 w)) (f : Fin w) : V2 w :=
  eVec f + (R.map fun r =>
    match leadO r with
    | some c => r f • eVec c
    | none => 0).sum

/-- Basis of the GF(2) right null space of a reduced matrix, one vector per
free column – the specification's `gf2_basis_for_gf2_rref`. -/
def kernelBasis (R : List (V2 w)) : List (V2 w) := (freeCols R).map (kvec R)

theorem list_sum_apply (L : List (V2 w)) (j : Fin w) :
    L.sum j = (L.map fun v => v j).sum := by
  induction L with
  | nil => rfl
  | cons p ps ih => simp [List.sum_cons, ih]

theorem mem_freeCols_iff {R : List (V2 w)} {j : Fin w} :
    j ∈ freeCols R ↔ j ∉ pivotsOf R := by
  simp [freeCols, List.mem_filter]

theorem lead_mem_pivotsOf {R : List (V2 w)} {r : V2 w} {c : Fin w}
    (hr : r ∈ R) (hc : leadO r = some c) : c ∈ pivotsOf R :=
  List.mem_filterMap.mpr ⟨r, hr, hc⟩

/-- Summing the pivot-column contributions against a stored row singles out
that row: all other pivot columns vanish on it. -/
theorem pivot_sum {R : List (V2 w)} (hinv : RRinv R) {r : V2 w} (hr : r ∈ R)
    (f : Fin w) :
    ((R.map fun p =>
      match leadO p with
      | some c => p f * r c
      | none => (0 : ZMod 2)).sum) = r f := by
  induction R with
  | nil => simp at hr
  | cons q qs ih =>
    obtain ⟨hnz, hpw⟩ := hinv
    have hqsinv : RRinv qs :=
      ⟨fun p hm => hnz p (List.mem_cons_of_mem _ hm), (List.pairwise_cons.mp hpw).2⟩
    have hhead : ∀ p ∈ qs, Cleared q p := (List.pairwise_cons.mp hpw).1
    obtain ⟨cq, hcq⟩ := hnz q (List.mem_cons_self _ _)
    rw [List.map_cons, List.sum_cons]
    rcases List.mem_cons.mp hr with rfl | hmem
    · -- the row is the head: head term gives `r f`, tail terms vanish
      have htail : ((qs.map fun p =>
          match leadO p with
          | some c => p f * r c
          | none => (0 : ZMod 2)).sum) = 0 := by
        refine List.sum_eq_zero ?_
        intro x hx
        obtain ⟨p, hp, rfl⟩ := List.mem_map.mp hx
        obtain ⟨cp, hcp⟩ := hqsinv.1 p hp
        simp only [hcp]
        rw [(hhead p hp).2 cp hcp, mul_zero]
      simp only [hcq]
      rw [htail, add_zero, leadO_some_one hcq, mul_one]
    · -- the row is in the tail: head term vanishes, recurse
      simp only [hcq]
      rw [(hhead r hmem).1 cq hcq, mul_zero, ih hqsinv hmem, zero_add]

/-- Every kernel-basis vector is annihilated by every row of the reduced matrix. -/
theorem kernelBasis_ker {R : List (V2 w)} (hinv : RRinv R) :
    ∀ v ∈ kernelBasis R, kerP R v := by
  intro v hv r hr
  obtain ⟨f, _hf, rfl⟩ := List.mem_map.mp hv
  rw [kvec, dotV_add_right, dotV_eVec_right, dotV_list_sum_right, List.map_map]
  have hmap : ((R.map fun p =>
      dotV r (match leadO p with
        | some c => p f • eVec c
        | none => 0)).sum) = r f := by
    have hcongr : (R.map fun p =>
        dotV r (match leadO p with
          | some c => p f • eVec c
          | none => 0)) = R.map fun p =>
        match leadO p with
        | some c => p f * r c
        | none => (0 : ZMod 2) := by
      refine List.map_congr_left ?_
      intro p _hp
      rcases hl : leadO p with _ | c <;> simp only [hl]
      · exact dotV_zero_right r
      · rw [dotV_smul_right, dotV_eVec_right]
    rw [hcongr]
    exact pivot_sum hinv hr f

  rw [show ((fun v => dotV r v) ∘ fun p =>
      match leadO p with
      | some c => p f • eVec c
      | none => (0 : V2 w)) = fun p =>
      dotV r (match leadO p with
        | some c => p f • eVec c
        | none => 0) from rfl, hmap]
  exact zmod2_add_self (r f)

/-- A kernel-basis vector, evaluated at any free column, is the indicator of
its own free column. -/
theorem kvec_apply_free {R : List (V2 w)} (f f2 : Fin w)
    (hf2 : f2 ∉ pivotsOf R) : kvec R f f2 = if f2 = f then 1 else 0 := by
  rw [kvec]
  show eVec f f2 + _ = _
  have hsum : ((R.map fun r =>
      match leadO r with
      | some c => r f • eVec c
      | none => (0 : V2 w)).sum) f2 = 0 := by
    rw [list_sum_apply, List.map_map]
    refine List.sum_eq_zero ?_
    intro x hx
    obtain ⟨p, hp, rfl⟩ := List.mem_map.mp hx
    rcases hl : leadO p with _ | c <;> simp only [Function.comp_apply, hl]
    · rfl
    · have hne : f2 ≠ c := fun h => hf2 (h ▸ lead_mem_pivotsOf hp hl)
      show p f * eVec c f2 = 0
      rw [eVec, if_neg hne, mul_zero]
  show eVec f f2 + ((R.map fun r =>
      match leadO r with
      | some c => r f • eVec c
      | none => (0 : V2 w)).sum) f2 = _
  rw [hsum, add_zero, eVec]

/-- Kernel-basis vectors are linearly independent over GF(2). -/
theorem kernelBasis_indep {R : List (V2 w)}
    (g : Fin (kernelBasis R).length → ZMod 2)
    (hg : (∑ i, g i • (kernelBasis R).get i) = 0) : ∀ i, g i = 0 := by
  intro i
  have hlen : (kernelBasis R).length = (freeCols R).length := List.length_map _ _
  have hget : ∀ j : Fin (kernelBasis R).length,
      (kernelBasis R).get j = kvec R ((freeCols R).get (Fin.cast hlen j)) := by
    intro j
    show (kernelBasis R)[j.val] = _
    simp only [kernelBasis, List.getElem_map]
    rfl
  set F := freeCols R with hF
  have hfree : ∀ j : Fin F.length, F.get j ∉ pivotsOf R :=
    fun j => mem_freeCols_iff.mp (List.get_mem F j.val j.isLt)
  have hnd : F.Nodup := List.Nodup.filter _ (List.nodup_finRange w)
  have heval := congrFun hg (F.get (Fin.cast hlen i))
  rw [Finset.sum_apply] at heval
  have hterm : ∀ j : Fin (kernelBasis R).length,
      (g j • (kernelBasis R).get j) (F.get (Fin.cast hlen i)) =
        if j = i then g i else 0 := by
    intro j
    rw [hget j]
    show g j * kvec R (F.get (Fin.cast hlen j)) (F.get (Fin.cast hlen i)) = _
    rw [kvec_apply_free _ _ (hfree (Fin.cast hlen i))]
    by_cases hji : j = i
    · rw [hji, if_pos rfl, if_pos rfl, mul_one]
    · have hne : F.get (Fin.cast hlen i) ≠ F.get (Fin.cast hlen j) := by
        intro heq
        apply hji
        have h2 : Fin.cast hlen j = Fin.cast hlen i :=
          (List.Nodup.get_inj_iff hnd).mp heq.symm
        have h3 : (Fin.cast hlen j).val = (Fin.cast hlen i).val := congrArg Fin.val h2
        exact Fin.ext h3
      rw [if_neg hne, if_neg hji, mul_zero]
  rw [Finset.sum_congr rfl fun j _ => hterm j] at heval
  rw [Finset.sum_ite_eq' Finset.univ i (fun _ => g i), if_pos (Finset.mem_univ i)]
    at heval
  have : (0 : V2 w) (F.get (Fin.cast hlen i)) = 0 := rfl
  rw [this] at heval
  exact heval

/-- Kernel-basis vectors are nonzero: each has a `1` at its free column. -/
theorem kernelBasis_nonzero {R : List (V2 w)} :
    ∀ v ∈ kernelBasis R, v ≠ 0 := by
  intro v hv
  obtain ⟨f, hf, rfl⟩ := List.mem_map.mp hv
  intro h0
  have := congrFun h0 f
  rw [kvec_apply_free f f (mem_freeCols_iff.mp hf), if_pos rfl] at this
  exact one_ne_zero this

end Kernel

section PauliLayer

/-- Single-qubit Pauli letters. -/
inductive Pauli : Type
  | I : Pauli
  | X : Pauli
  | Y : Pauli
  | Z : Pauli
deriving DecidableEq, Repr

/-- X-support bit of a Pauli letter. -/
def xbit : Pauli → ZMod 2
  | .X => 1
  | .Y => 1
  | _ => 0

/-- Z-support bit of a Pauli letter. -/
def zbit : Pauli → ZMod 2
  | .Z => 1
  | .Y => 1
  | _ => 0

/-- The Pauli letter with the given X- and Z-support bits. -/
def pauliOfBits (x z : ZMod 2) : Pauli :=
  if x = 1 then (if z = 1 then .Y else .X) else (if z = 1 then .Z else .I)

theorem xbit_pauliOfBits (x z : ZMod 2) : xbit (pauliOfBits x z) = x := by
  revert x z; decide

theorem zbit_pauliOfBits (x z : ZMod 2) : zbit (pauliOfBits x z) = z := by
  revert x z; decide

theorem pauliOfBits_bits (p : Pauli) : pauliOfBits (xbit p) (zbit p) = p := by
  cases p <;> rfl

/-- A Pauli string (term) over `n` qubits. -/
abbrev PStr (n : ℕ) := Fin n → Pauli

variable {n : ℕ}

/-- The all-identity Pauli string. -/
def pid : PStr n := fun _ => Pauli.I

/-- Symplectic encoding of a Pauli string: X block first, then Z block
(the specification's `SymplecticVector`). -/
def encodeXZ (P : PStr n) : V2 (n + n) :=
  Fin.addCases (fun i => xbit (P i)) (fun i => zbit (P i))

/-- Decoding of a symplectic vector back to a Pauli string
(the specification's `pauli_from_symplectic`). -/
def decodeXZ (v : V2 (n + n)) : PStr n :=
  fun q => pauliOfBits (v (Fin.castAdd n q)) (v (Fin.natAdd n q))

/-- Exchanging the X and Z blocks of a symplectic vector
(the specification's `swap_XZ_blocks`). -/
def swapBlocks (v : V2 (n + n)) : V2 (n + n) :=
  Fin.addCases (fun i => v (Fin.natAdd n i)) (fun i => v (Fin.castAdd n i))

theorem encode_decode (v : V2 (n + n)) : encodeXZ (decodeXZ v) = v := by
  funext i
  induction i using Fin.addCases with
  | left i => rw [encodeXZ, Fin.addCases_left]; exact xbit_pauliOfBits _ _
  | right i => rw [encodeXZ, Fin.addCases_right]; exact zbit_pauliOfBits _ _

theorem decode_encode (P : PStr n) : decodeXZ (encodeXZ P) = P := by
  funext q
  simp only [decodeXZ, encodeXZ, Fin.addCases_left, Fin.addCases_right]
  exact pauliOfBits_bits _

theorem swapBlocks_swapBlocks (v : V2 (n + n)) : swapBlocks (swapBlocks v) = v := by
  funext i
  induction i using Fin.addCases with
  | left i => rw [swapBlocks, Fin.addCases_left, swapBlocks, Fin.addCases_right]
  | right i => rw [swapBlocks, Fin.addCases_right, swapBlocks, Fin.addCases_left]

/-- The symplectic form of two Pauli strings: `0` iff the two terms commute
(mod phase), `1` iff they anticommute. -/
def sform (P Q : PStr n) : ZMod 2 :=
  ∑ q, (xbit (P q) * zbit (Q q) + zbit (P q) * xbit (Q q))

theorem sform_comm (P Q : PStr n) : sform P Q = sform Q P := by
  unfold sform
  refine Finset.sum_congr rfl fun q _ => by ring

/-- The GF(2) dot product of a block-swapped row with a symplectic vector
computes the symplectic form – the reason the code swaps blocks before
eliminating. -/
theorem dot_swap_encode (P Q : PStr n) :
    dotV (swapBlocks (encodeXZ P)) (encodeXZ Q) = sform P Q := by
  rw [dotV, Fin.sum_univ_add]
  have h1 : ∀ i : Fin n,
      swapBlocks (encodeXZ P) (Fin.castAdd n i) * encodeXZ Q (Fin.castAdd n i) =
        zbit (P i) * xbit (Q i) := by
    intro i
    rw [swapBlocks, Fin.addCases_left, encodeXZ, Fin.addCases_right, encodeXZ,
      Fin.addCases_left]
  have h2 : ∀ i : Fin n,
      swapBlocks (encodeXZ P) (Fin.natAdd n i) * encodeXZ Q (Fin.natAdd n i) =
        xbit (P i) * zbit (Q i) := by
    intro i
    rw [swapBlocks, Fin.addCases_right, encodeXZ, Fin.addCases_left, encodeXZ,
      Fin.addCases_right]
  rw [Finset.sum_congr rfl fun i _ => h1 i, Finset.sum_congr rfl fun i _ => h2 i,
    sform, Finset.sum_add_distrib]
  ring

/-- Single-qubit Pauli product (letter part). -/
def pmul1 : Pauli → Pauli → Pauli
  | .I, q => q
  | p, .I => p
  | .X, .X => .I
  | .Y, .Y => .I
  | .Z, .Z => .I
  | .X, .Y => .Z
  | .Y, .X => .Z
  | .Y, .Z => .X
  | .Z, .Y => .X
  | .Z, .X => .Y
  | .X, .Z => .Y

/-- Single-qubit Pauli product phase, as a power of `i` (element of `ZMod 4`):
`p * q = i^(phase1 p q) * pmul1 p q`. -/
def phase1 : Pauli → Pauli → ZMod 4
  | .X, .Y => 1
  | .Y, .Z => 1
  | .Z, .X => 1
  | .Y, .X => 3
  | .Z, .Y => 3
  | .X, .Z => 3
  | _, _ => 0

/-- Label-level product of two Pauli strings (the specification's
`multiply_paulis`, phase dropped). -/
def pmulP (P Q : PStr n) : PStr n := fun q => pmul1 (P q) (Q q)

/-- Total phase (power of `i`) of the product of two Pauli strings. -/
def phaseP (P Q : PStr n) : ZMod 4 := ∑ q, phase1 (P q) (Q q)

/-- Product with phase (the specification's `multiply_paulis_with_coeff`):
the coefficient of the result is `i ^ (phaseP P Q)`. -/
def pmulPhase (P Q : PStr n) : PStr n × ZMod 4 := (pmulP P Q, phaseP P Q)

/-- Label-level product of a list of Pauli strings (the specification's
`multiply_pauli_list`). -/
def pmulList (L : List (PStr n)) : PStr n := L.foldl pmulP pid

/-- The integer `int((1j * i^k).real)`: the sign the Python code extracts from
the product phase of the two clique representatives. -/
def signOf4 (k : ZMod 4) : ℤ :=
  match k.val with
  | 1 => -1
  | 3 => 1
  | _ => 0

/-- Number of `X`/`Y` letters of a Pauli string: the Python sort key
`x[0].count('X') + x[0].count('Y')`. -/
def countXY (P : PStr n) : ℕ :=
  (Finset.univ.filter fun q => P q = Pauli.X ∨ P q = Pauli.Y).card

/-- Number of non-identity letters of a Pauli string (the specification's
"non-identity single-qubit factors"). -/
def countNonI (P : PStr n) : ℕ :=
  (Finset.univ.filter fun q => P q ≠ Pauli.I).card

theorem encode_pid : encodeXZ (pid (n := n)) = 0 := by
  funext i
  induction i using Fin.addCases with
  | left i => rw [encodeXZ, Fin.addCases_left]; rfl
  | right i => rw [encodeXZ, Fin.addCases_right]; rfl

theorem decode_ne_pid {v : V2 (n + n)} (hv : v ≠ 0) : decodeXZ v ≠ pid := by
  intro h
  exact hv (by rw [← encode_decode v, h, encode_pid])

end PauliLayer

section Pipeline

variable {n : ℕ}

/-- The ZX-swapped symplectic matrix of a list of Hamiltonian terms
(`hamiltonian.swap_XZ_blocks()` in both source files). -/
def hamRows (terms : List (PStr n)) : List (V2 (n + n)) :=
  terms.map fun P => swapBlocks (encodeXZ P)

/-- Kernel basis of the reduced ZX-swapped symplectic matrix — the common
core of `tapering.identify_symmetry_generators` (lines 47–56) and of the
kernel part of `cs_vqe.independent_generators` (lines 81–86). -/
def symmetry_kernel (terms : List (PStr n)) : List (V2 (n + n)) :=
  kernelBasis (rref (hamRows terms))

/-- Model of `tapering.identify_symmetry_generators`: decode each kernel basis
vector back to a Pauli string. -/
def identify_symmetry_generators (terms : List (PStr n)) : List (PStr n) :=
  (symmetry_kernel terms).map decodeXZ

/-- The `XZ_reduced` matrix of `cs_vqe.independent_generators` (lines 88–91): the
nonzero reduced rows with their X and Z blocks swapped back. -/
def xz_reduced (terms : List (PStr n)) : List (V2 (n + n)) :=
  (rref (hamRows terms)).map swapBlocks

/-- Lines 92–99 of `cs_vqe.independent_generators`: keep exactly the reduced
rows that are **not equal to any kernel basis vector** (`diff = kernel -
sympauli; if list(np.where(~diff.any(axis=1))[0]) == []`). -/
def clique_candidates (terms : List (PStr n)) : List (V2 (n + n)) :=
  (xz_reduced terms).filter fun row => decide (row ∉ symmetry_kernel terms)

/-- GF(2) span membership (the row-space of a list of vectors). -/
def inSpan {w : ℕ} (L : List (V2 w)) (v : V2 w) : Prop :=
  ∃ c : Fin L.length → ZMod 2, v = ∑ i, c i • L.get i

instance {w : ℕ} (L : List (V2 w)) (v : V2 w) : Decidable (inSpan L v) := by
  unfold inSpan; infer_instance

/-- Commutation-pattern row of a candidate against the whole candidate list
(`QubitOp(cliquereps).adjacency_matrix()`, modelled from the spec:
entry `1` where the two terms commute, `0` where they anticommute). -/
def adjRow (reps : List (PStr n)) (P : PStr n) : List ℕ :=
  reps.map fun Q => if sform P Q = 0 then 1 else 0

/-- Lexicographic (non-strict) comparison of equal-length key lists. -/
def lexLE : List ℕ → List ℕ → Bool
  | [], _ => true
  | _ :: _, [] => false
  | a :: as, b :: bs => if a < b then true else if b < a then false else lexLE as bs

/-- Masking step of the deduplication (`np.diff` on the sorted commutation
matrix): keep an entry exactly when its key differs from the key of the
*previous sorted entry*. -/
def maskAux {α : Type} : List ℕ → List (List ℕ × α) → List α
  | _, [] => []
  | prev, (k, P) :: rest =>
    if k = prev then maskAux k rest else P :: maskAux k rest

/-- Lines 104–111 of `cs_vqe.independent_generators`: sort the candidates by
their commutation pattern (`np.lexsort` reads the pattern right-to-left and
is stable) and keep one representative per run of equal patterns. -/
def dedupCliques (reps : List (PStr n)) : List (PStr n) :=
  let pairs := reps.map fun P => ((adjRow reps P).reverse, P)
  match sortStable (fun a b => lexLE a.1 b.1) pairs with
  | [] => []
  | (k, P) :: rest => P :: maskAux k rest

/-- Model of `cs_vqe.independent_generators` (lines 75–119): symmetry generators from
the kernel, anticommuting clique candidates from the remaining reduced rows,
deduplicated by commutation pattern.  Returns `none` when the candidate list
is empty, where `np.stack([])` raises `ValueError`. -/
def independent_generators (terms : List (PStr n)) :
    Option (List (PStr n) × List (PStr n)) :=
  let cand := clique_candidates terms
  if cand.isEmpty then none
  else
    some (identify_symmetry_generators terms, dedupCliques (cand.map decodeXZ))

theorem maskAux_subset {α : Type} (prev : List ℕ) (l : List (List ℕ × α)) :
    ∀ Q ∈ maskAux prev l, ∃ pr ∈ l, pr.2 = Q := by
  induction l generalizing prev with
  | nil => intro Q hQ; simp [maskAux] at hQ
  | cons kp rest ih =>
    intro Q hQ
    obtain ⟨k, P⟩ := kp
    rw [maskAux] at hQ
    by_cases hb : k = prev
    · rw [if_pos hb] at hQ
      obtain ⟨pr, hpr, hq⟩ := ih k Q hQ
      exact ⟨pr, List.mem_cons_of_mem _ hpr, hq⟩
    · rw [if_neg hb] at hQ
      rcases List.mem_cons.mp hQ with rfl | hm
      · exact ⟨(k, Q), List.mem_cons_self _ _, rfl⟩
      · obtain ⟨pr, hpr, hq⟩ := ih k Q hm
        exact ⟨pr, List.mem_cons_of_mem _ hpr, hq⟩

theorem dedupCliques_subset (reps : List (PStr n)) :
    ∀ Q ∈ dedupCliques reps, Q ∈ reps := by
  intro Q hQ
  rw [dedupCliques] at hQ
  set pairs := reps.map fun P => ((adjRow reps P).reverse, P) with hpairs
  have hperm := sortStable_perm (fun a b : List ℕ × PStr n => lexLE a.1 b.1) pairs
  have hmem : ∀ pr ∈ sortStable (fun a b : List ℕ × PStr n => lexLE a.1 b.1) pairs,
      pr.2 ∈ reps := by
    intro pr hpr
    have : pr ∈ pairs := hperm.mem_iff.mp hpr
    obtain ⟨P, hP, rfl⟩ := List.mem_map.mp this
    exact hP
  rcases hsort : sortStable (fun a b : List ℕ × PStr n => lexLE a.1 b.1) pairs with
    _ | ⟨⟨k, P⟩, rest⟩
  · rw [hsort] at hQ; simp at hQ
  · rw [hsort] at hQ
    rcases List.mem_cons.mp hQ with rfl | hm
    · exact hmem (k, Q) (by rw [hsort]; exact List.mem_cons_self _ _)
    · obtain ⟨pr, hpr, hq⟩ := maskAux_subset k rest Q hm
      exact hq ▸ hmem pr (by rw [hsort]; exact List.mem_cons_of_mem _ hpr)

end Pipeline

end Qondense

namespace Qondense

section ObjectiveFunction

variable {n : ℕ}

/-- Hamiltonian coefficient lookup: `self.hamiltonian._dict[op]` guarded by
`try/except`, so a missing label contributes `0`. -/
def hamCoeff (Ham : List (PStr n × ℝ)) (op : PStr n) : ℝ :=
  match Ham.find? (fun kv => decide (kv.1 = op)) with
  | some kv => kv.2
  | none => 0

/-- Size-`i` combinations of a list, in the enumeration order of Python's
`itertools.combinations`. -/
def combos {α : Type} : ℕ → List α → List (List α)
  | 0, _ => [[]]
  | _ + 1, [] => []
  | i + 1, x :: xs => ((combos i xs).map (x :: ·)) ++ combos (i + 1) xs

/-- Index of the first occurrence of an element (Python's `list.index`). -/
def idxOf {α : Type} [DecidableEq α] : List α → α → ℕ
  | [], _ => 0
  | x :: xs, a => if x = a then 0 else idxOf xs a + 1

/-- All nonempty combinations of the generator list, sizes `1` to `m`
(`G_combs` of `cs_vqe.classical_obj_fnc_params`, lines 134–136). -/
def G_combs (G : List (PStr n)) : List (List (PStr n)) :=
  ((List.range G.length).map fun i => combos (i + 1) G).flatten

/-- The multiplicative closure of the generating set: each nonempty subset
reduced to its labelled product together with the generator indices that
produced it, with the all-identity term and empty index set appended
(lines 137–141). -/
def G_closure (G : List (PStr n)) : List (PStr n × List ℕ) :=
  ((G_combs G).map fun comb => (pmulList comb, comb.map (idxOf G))) ++ [(pid, [])]

/-- One stored term of the classical objective function: the direct
coefficient `h_G`, the generator index set, and the clique-product
coefficients (the specification's `ObjectiveTerm`). -/
structure ObjTerm : Type where
  hG : ℝ
  qIndices : List ℕ
  hGCs : List ℝ

/-- The data extracted for one closure element: look up its own coefficient
and the coefficient of its product with each clique representative
(lines 146–158). -/
def mkObjTerm (Ham : List (PStr n × ℝ)) (C : List (PStr n))
    (entry : PStr n × List ℕ) : ObjTerm :=
  ⟨hamCoeff Ham entry.1, entry.2,
    C.map fun Cop => hamCoeff Ham (pmulP entry.1 Cop)⟩

/-- Model of `cs_vqe.classical_obj_fnc_params` (lines 122–162): every closure
element whose direct coefficient is nonzero or that has a nonzero
clique-product coefficient is retained (`if h_G!=0 or not
np.all(np.array(C_vec)==0)`). -/
noncomputable def classical_obj_fnc_params (Ham : List (PStr n × ℝ))
    (G C : List (PStr n)) : List ObjTerm :=
  ((G_closure G).map (mkObjTerm Ham C)).filter
    fun t => decide (t.hG ≠ 0 ∨ ∃ c ∈ t.hGCs, c ≠ 0)

/-- Running sum of `cs_vqe.classical_obj_fnc`; the accesses `h_GCs[0]` and
`h_GCs[1]` are fallible exactly as Python list indexing is. -/
noncomputable def objSumGo (q : ℕ → ℝ) (t : ℝ) : ℝ → List ObjTerm → Option ℝ
  | acc, [] => some acc
  | acc, e :: rest =>
    match e.hGCs[0]?, e.hGCs[1]? with
    | some c0, some c1 =>
        objSumGo q t
          (acc + (e.hG + Real.sin t * c0 + Real.cos t * c1) *
            (e.qIndices.map q).prod) rest
    | _, _ => none

/-- Model of `cs_vqe.classical_obj_fnc` (lines 165–176): evaluate the stored
objective terms at the eigenvalue assignment `q` and angle `t`. -/
noncomputable def classical_obj_fnc (prms : List ObjTerm) (q : ℕ → ℝ) (t : ℝ) :
    Option ℝ :=
  objSumGo q t 0 prms

end ObjectiveFunction

/-- Python-level errors raised by the modelled methods. -/
inductive PyErr : Type
  | typeError : PyErr
  | valueError : PyErr
  | indexError : PyErr
  | degenerateClique : PyErr
deriving DecidableEq, Repr

section Rotation

variable {n : ℕ}

/-- Body of `cs_vqe.unitary_partitioning_rotation` after the sort has fixed
the roles `(A, a)` and `(B, b)` (lines 241–250): fail when a weight is zero,
otherwise rotate by `t = arctan(-b/a) · sign` with the near-singular
correction `t += pi` when `|a + cos t| < 1e-15`. -/
noncomputable def uprAngle (A B : PStr n) (a b : ℝ) : ℝ :=
  Real.arctan (-b / a) * ((signOf4 (phaseP A B) : ℤ) : ℝ)

noncomputable def uprCore (A B : PStr n) (a b : ℝ) : Except PyErr (PStr n × ℝ) :=
  if a = 0 ∨ b = 0 then .error .degenerateClique
  else .ok (pmulP A B,
    if |a + Real.cos (uprAngle A B a b)| < 1e-15 then uprAngle A B a b + Real.pi
    else uprAngle A B a b)

/-- Model of `cs_vqe.unitary_partitioning_rotation` (lines 231–250): sort the
two weighted clique representatives by their `X`/`Y` letter count (Python's
stable `sorted`), then apply `uprCore`; unpacking a list of length other than
two raises. -/
noncomputable def unitary_partitioning_rotation (acOp : List (PStr n × ℝ)) :
    Except PyErr (PStr n × ℝ) :=
  match sortStable (fun x y => decide (countXY x.1 ≤ countXY y.1)) acOp with
  | [Aa, Bb] => uprCore Aa.1 Bb.1 Aa.2 Bb.2
  | _ => .error .valueError

end Rotation

section Tapering

variable {n : ℕ}

/-- Modelled from the spec: the Projection Service (`S3_projection`) is
"constructed from (stabilizer Pauli terms, their fixed ±1 eigenvalues, a
designated single-qubit Pauli symbol to rotate onto)"; this record is the
state its constructor stores. -/
structure ProjState (n : ℕ) : Type where
  stabilizers : List (PStr n)
  eigenvalues : List ℤ
  target_sqp : Pauli

/-- The state stored by `tapering.__init__` (lines 31–44). -/
structure TaperState (n : ℕ) : Type where
  hamiltonian : List (PStr n × ℝ)
  ref_state : List ℕ
  n_qubits : ℕ
  target_sqp : Pauli
  symmetry_ops : List (PStr n)
  symmetry_sec : List ℤ
  n_taper : ℕ
  proj : ProjState n

/-- Modelled from the spec: `measure_operator` (an external state-measurement
utility) measures a symmetry generator on the computational-basis reference
state, returning the ±1 sector eigenvalue – the parity of the reference bits
on the generator's `Z` support. -/
def measure_operator (P : PStr n) (ref : List ℕ) : ℤ :=
  (-1) ^ (Finset.univ.filter fun q : Fin n =>
    P q = Pauli.Z ∧ ref.getD q.val 0 = 1).card

/-- Model of `tapering.__init__` (lines 22–44): store the Hamiltonian and
reference state (`assert(len(ref_state)==self.n_qubits)`), extract the
symmetry generators, measure the sector, and initialise the inherited
`S3_projection` state from them. -/
def mkTapering (ham : List (PStr n × ℝ)) (ref : List ℕ) (sqp : Pauli) :
    Option (TaperState n) :=
  if ref.length = n then
    some
      { hamiltonian := ham
        ref_state := ref
        n_qubits := n
        target_sqp := sqp
        symmetry_ops := identify_symmetry_generators (ham.map Prod.fst)
        symmetry_sec := (identify_symmetry_generators (ham.map Prod.fst)).map
          fun P => measure_operator P ref
        n_taper := (identify_symmetry_generators (ham.map Prod.fst)).length
        proj :=
          { stabilizers := identify_symmetry_generators (ham.map Prod.fst)
            eigenvalues := (identify_symmetry_generators (ham.map Prod.fst)).map
              fun P => measure_operator P ref
            target_sqp := sqp } }
  else none

/-- Model of `tapering.update_S3_projection` (lines 68–76): re-run the
inherited `S3_projection` constructor with the stored generators and the new
sector. -/
def update_S3_projection (st : TaperState n) (sector : List ℤ) : TaperState n :=
  { st with proj :=
      { stabilizers := st.symmetry_ops
        eigenvalues := sector
        target_sqp := st.target_sqp } }

end Tapering

section GroundState

/-- Parameter names of `cs_vqe.contextual_subspace_hamiltonian`
(line 285–287 of the source: only `stabilizer_indices`). -/
def contextual_subspace_hamiltonian_params : List String :=
  ["self", "stabilizer_indices"]

/-- Keyword arguments passed at line 303 of `cs_vqe.noncontextual_ground_state`. -/
def noncontextual_ground_state_call_kwargs : List String :=
  ["stabilizer_indices", "projection_qubits"]

/-- Python keyword-call check: every keyword must name a parameter of the
callee, otherwise the call raises `TypeError`. -/
def kwCallOk (params kwargs : List String) : Bool :=
  kwargs.all fun k => params.contains k

/-- Model of `cs_vqe.noncontextual_ground_state` (lines 297–313).  The method
first calls `contextual_subspace_hamiltonian(stabilizer_indices=...,
projection_qubits=...)`; the tail (modelled from the spec: the compatible
reduced eigenstates are listed when there is more than one, and the first is
returned, an empty list raising `IndexError` at `reduced_eigenstates[0]`) is
reached only if that keyword call is well-formed.  `eigenstates` stands for
the spec-modelled `reduced_eigenstates` list. -/
def noncontextual_ground_state (stabilizer_indices : List ℕ)
    (projection_qubits : Option (List ℕ)) (eigenstates : List (List ℕ)) :
    Except PyErr (List ℕ) :=
  if kwCallOk contextual_subspace_hamiltonian_params
      noncontextual_ground_state_call_kwargs then
    match eigenstates with
    | [] => .error .indexError
    | e :: _ => .ok e
  else .error .typeError

end GroundState

/-- The two-qubit term `ZZ`. -/
def sZZ : PStr 2 := ![Pauli.Z, Pauli.Z]

/-- The two-qubit term `XX`. -/
def pXX : PStr 2 := ![Pauli.X, Pauli.X]

/-- The two-qubit term `ZI`. -/
def pZI : PStr 2 := ![Pauli.Z, Pauli.I]

/-- The two-qubit term `IZ`. -/
def pIZ : PStr 2 := ![Pauli.I, Pauli.Z]

/-- The three-qubit term `ZZI`. -/
def sZZI : PStr 3 := ![Pauli.Z, Pauli.Z, Pauli.I]

/-- The three-qubit term `IIX`. -/
def sIIX : PStr 3 := ![Pauli.I, Pauli.I, Pauli.X]

/-- The three-qubit term `IIZ`. -/
def sIIZ : PStr 3 := ![Pauli.I, Pauli.I, Pauli.Z]

/-- The three-qubit term `XXI`. -/
def pXXI : PStr 3 := ![Pauli.X, Pauli.X, Pauli.I]

/-- The three-qubit term `ZII`. -/
def pZII : PStr 3 := ![Pauli.Z, Pauli.I, Pauli.I]

/-- The three-qubit term `IZI`. -/
def pIZI : PStr 3 := ![Pauli.I, Pauli.Z, Pauli.I]

theorem mem_inSpan {w : ℕ} (L : List (V2 w)) (v : V2 w) (hv : v ∈ L) :
    inSpan L v := by
  obtain ⟨k, hvk⟩ := List.mem_iff_get.mp hv
  refine ⟨fun j => if j = k then 1 else 0, ?_⟩
  have hterm : ∀ j : Fin L.length,
      (if j = k then (1 : ZMod 2) else 0) • L.get j =
        if j = k then L.get j else 0 := by
    intro j
    by_cases hjk : j = k
    · rw [if_pos hjk, if_pos hjk, one_smul]
    · rw [if_neg hjk, if_neg hjk, zero_smul]
  rw [Finset.sum_congr rfl fun j _ => hterm j,
    Finset.sum_ite_eq' Finset.univ k (fun j => L.get j), if_pos (Finset.mem_univ k)]
  exact hvk.symm

/-- **C1.**  For every input term list (the full Hamiltonian for tapering, or
a noncontextual subset for CS-VQE), the generator set returned by the
symmetry extraction is linearly independent over GF(2) in symplectic form,
every generator commutes (mod phase, i.e. has vanishing symplectic form)
with every input term, and the all-identity string is never returned. -/
theorem C1_symmetry_generator_guarantees {n : ℕ} (terms : List (PStr n)) :
    (∀ g : Fin (identify_symmetry_generators terms).length → ZMod 2,
        (∑ i, g i • encodeXZ ((identify_symmetry_generators terms).get i)) = 0 →
        ∀ i, g i = 0) ∧
    (∀ T ∈ terms, ∀ P ∈ identify_symmetry_generators terms, sform T P = 0) ∧
    (∀ P ∈ identify_symmetry_generators terms, P ≠ pid) := by
  have hlen : (identify_symmetry_generators terms).length =
      (symmetry_kernel terms).length := List.length_map _ _
  have hget : ∀ i : Fin (identify_symmetry_generators terms).length,
      encodeXZ ((identify_symmetry_generators terms).get i) =
        (symmetry_kernel terms).get (Fin.cast hlen i) := by
    intro i
    show encodeXZ ((identify_symmetry_generators terms)[i.val]) = _
    simp only [identify_symmetry_generators, List.getElem_map]
    rw [encode_decode]
    rfl
  refine ⟨?_, ?_, ?_⟩
  · -- linear independence, inherited from the kernel basis
    intro g hg i
    have h2 : (∑ j : Fin (symmetry_kernel terms).length,
        g (Fin.cast hlen.symm j) • (symmetry_kernel terms).get j) = 0 := by
      rw [← hg]
      refine (Fintype.sum_equiv (finCongr hlen) _ _ ?_).symm
      intro x
      rw [hget x]
      exact congrArg₂ (fun (a : ZMod 2) (v : V2 (n + n)) => a • v)
        (congrArg g (Fin.ext rfl))
        (congrArg (symmetry_kernel terms).get (Fin.ext rfl))
    have h3 := kernelBasis_indep (R := rref (hamRows terms))
      (fun j => g (Fin.cast hlen.symm j)) h2 (Fin.cast hlen i)
    have h4 : Fin.cast hlen.symm (Fin.cast hlen i) = i := Fin.ext rfl
    rw [h4] at h3
    exact h3
  · -- commutation with every input term
    intro T hT P hP
    obtain ⟨v, hv, rfl⟩ := List.mem_map.mp hP
    have hker : kerP (hamRows terms) v :=
      (rref_ker (hamRows terms) v).mp (kernelBasis_ker (rref_inv _) v hv)
    have hrow : swapBlocks (encodeXZ T) ∈ hamRows terms := List.mem_map_of_mem _ hT
    rw [← dot_swap_encode T (decodeXZ v), encode_decode]
    exact hker _ hrow
  · -- the all-identity term is never returned
    intro P hP
    obtain ⟨v, hv, rfl⟩ := List.mem_map.mp hP
    exact decode_ne_pid (kernelBasis_nonzero v hv)

/-- Witness for **C1** at the concrete input `[ZZ]`:`XX` is among the
returned generators, commutes with `ZZ`, and is not the identity. -/
theorem C1_symmetry_generator_guarantees_witness :
    pXX ∈ identify_symmetry_generators [sZZ] ∧ sform sZZ pXX = 0 ∧ pXX ≠ pid :=
  ⟨by decide,
    (C1_symmetry_generator_guarantees [sZZ]).2.1 sZZ (by decide) pXX (by decide),
    (C1_symmetry_generator_guarantees [sZZ]).2.2 pXX (by decide)⟩

/-- The computed decomposition of the noncontextual input `[ZZI, IIX, IIZ]`. -/
theorem indep_gens_on_ZZI_IIX_IIZ :
    independent_generators [sZZI, sIIX, sIIZ] =
      some ([pXXI, pZII, pIZI], [sIIZ, sIIX, sZZI]) :=
  (by rw [independent_generators]; rfl :
      independent_generators [sZZI, sIIX, sIIZ] =
        some (identify_symmetry_generators [sZZI, sIIX, sIIZ],
          dedupCliques ((clique_candidates [sZZI, sIIX, sIIZ]).map
            decodeXZ))).trans
    (congrArg some (by decide))

/-- **C3 (counterexample).**  On the noncontextual input `[ZZI, IIX, IIZ]`
the decomposition keeps `ZZI` (a symmetry element: the sum of two kernel
basis vectors, unequal to each) among the clique representatives, and the
distinct representatives `IIZ` and `ZZI` **commute** instead of
anticommuting. -/
theorem C3_counterexample :
    independent_generators [sZZI, sIIX, sIIZ] =
      some ([pXXI, pZII, pIZI], [sIIZ, sIIX, sZZI]) ∧
    sIIZ ≠ sZZI ∧ sform sIIZ sZZI = 0 :=
  ⟨indep_gens_on_ZZI_IIX_IIZ, by decide, by decide⟩

/-- **C3 (amended).**  Every returned clique representative commutes with
every returned generator (this half of the invariant holds for all inputs);
pairwise anticommutation of distinct representatives can fail, as
`C3_counterexample` shows. -/
theorem C3_cliquereps_commute_with_generators {n : ℕ} (terms : List (PStr n))
    (gens reps : List (PStr n))
    (h : independent_generators terms = some (gens, reps)) :
    ∀ P ∈ reps, ∀ Q ∈ gens, sform P Q = 0 := by
  rw [independent_generators] at h
  by_cases hemp : (clique_candidates terms).isEmpty
  · rw [if_pos hemp] at h; exact absurd h (by simp)
  · rw [if_neg hemp] at h
    cases Option.some.inj h
    intro P hP Q hQ
    obtain ⟨row, hrowm, rfl⟩ :=
      List.mem_map.mp (dedupCliques_subset _ P hP)
    obtain ⟨hrowxz, _⟩ := List.mem_filter.mp hrowm
    obtain ⟨r0, hr0, rfl⟩ := List.mem_map.mp hrowxz
    obtain ⟨v, hv, rfl⟩ := List.mem_map.mp hQ
    have hkv : kerP (rref (hamRows terms)) v := kernelBasis_ker (rref_inv _) v hv
    rw [← dot_swap_encode, encode_decode, encode_decode, swapBlocks_swapBlocks]
    exact hkv r0 hr0

/-- Witness for the amended **C3** at the input `[ZZI, IIX, IIZ]`:
the representative `IIZ` commutes with the generator `XXI`. -/
theorem C3_cliquereps_commute_witness : sform sIIZ pXXI = 0 :=
  C3_cliquereps_commute_with_generators [sZZI, sIIX, sIIZ]
    [pXXI, pZII, pIZI] [sIIZ, sIIX, sZZI] indep_gens_on_ZZI_IIX_IIZ
    sIIZ (by decide) pXXI (by decide)

/-- **C5 (counterexample).**  On the single-term Hamiltonian `[ZZ]` the
reduced row `ZZ` lies in the GF(2) span of the generator kernel (it is the
sum of the kernel basis vectors `ZI` and `IZ`) yet it is **kept** as a
clique candidate: the code only discards exact matches of kernel basis
vectors, not the kernel's row-space. -/
theorem C5_counterexample :
    encodeXZ sZZ ∈ clique_candidates [sZZ] ∧
    inSpan (symmetry_kernel [sZZ]) (encodeXZ sZZ) := by decide

/-- **C5 (amended).**  A reduced row is kept as a clique candidate exactly
when it is not **equal to any kernel basis vector** (an exact row match, not
a span test); consequently a row outside the kernel's span is always kept,
but a row inside the span need not be discarded (see `C5_counterexample`). -/
theorem C5_exact_match_filter {n : ℕ} (terms : List (PStr n)) (row : V2 (n + n)) :
    (row ∈ clique_candidates terms ↔
      row ∈ xz_reduced terms ∧ row ∉ symmetry_kernel terms) ∧
    (row ∈ xz_reduced terms → ¬ inSpan (symmetry_kernel terms) row →
      row ∈ clique_candidates terms) := by
  have hiff : row ∈ clique_candidates terms ↔
      row ∈ xz_reduced terms ∧ row ∉ symmetry_kernel terms := by
    rw [clique_candidates, List.mem_filter]
    constructor
    · rintro ⟨h1, h2⟩
      exact ⟨h1, of_decide_eq_true h2⟩
    · rintro ⟨h1, h2⟩
      exact ⟨h1, decide_eq_true h2⟩
  refine ⟨hiff, ?_⟩
  intro hxz hspan
  exact hiff.mpr ⟨hxz, fun hmem => hspan (mem_inSpan _ _ hmem)⟩

/-- The one-qubit term `Z`. -/
def sZ1 : PStr 1 := ![Pauli.Z]

/-- The one-qubit term `X`. -/
def sX1 : PStr 1 := ![Pauli.X]

theorem objSumGo_eq (q : ℕ → ℝ) (t : ℝ) (prms : List ObjTerm)
    (hlen : ∀ e ∈ prms, 2 ≤ e.hGCs.length) :
    ∀ acc, objSumGo q t acc prms =
      some (acc + (prms.map fun e =>
        (e.hG + Real.sin t * e.hGCs.getD 0 0 + Real.cos t * e.hGCs.getD 1 0) *
          (e.qIndices.map q).prod).sum) := by
  induction prms with
  | nil => intro acc; simp [objSumGo]
  | cons e rest ih =>
    intro acc
    have he := hlen e (List.mem_cons_self _ _)
    obtain ⟨c0, c1, tl, hcs⟩ : ∃ c0 c1 tl, e.hGCs = c0 :: c1 :: tl := by
      rcases hl : e.hGCs with _ | ⟨c0, _ | ⟨c1, tl⟩⟩
      · rw [hl] at he; simp at he
      · rw [hl] at he; simp at he
      · exact ⟨c0, c1, tl, rfl⟩
    have hrest : ∀ e2 ∈ rest, 2 ≤ e2.hGCs.length :=
      fun e2 hm => hlen e2 (List.mem_cons_of_mem _ hm)
    simp only [objSumGo, hcs, List.getElem?_cons_zero, List.getElem?_cons_succ]
    rw [ih hrest]
    simp only [List.map_cons, List.sum_cons, hcs, List.getD_cons_zero,
      List.getD_cons_succ]
    rw [add_assoc]

/-- **C2.**  For every stored objective-term list (each term carrying at
least the two clique coefficients the formula refers to) and every ±1
eigenvalue assignment `q` and angle `t`, `classical_obj_fnc` returns exactly
`Σ (h_G + sin t · h_{G·C1} + cos t · h_{G·C2}) · Π_{i ∈ indices} q i`. -/
theorem C2_classical_obj_fnc_value (prms : List ObjTerm) (q : ℕ → ℝ) (t : ℝ)
    (hlen : ∀ e ∈ prms, 2 ≤ e.hGCs.length)
    (hq : ∀ i, q i = 1 ∨ q i = -1) :
    classical_obj_fnc prms q t =
      some ((prms.map fun e =>
        (e.hG + Real.sin t * e.hGCs.getD 0 0 + Real.cos t * e.hGCs.getD 1 0) *
          (e.qIndices.map q).prod).sum) := by
  rw [classical_obj_fnc, objSumGo_eq q t prms hlen 0, zero_add]

/-- Witness for **C2** at one concrete stored term, `q ≡ 1`, `t = 0`. -/
theorem C2_classical_obj_fnc_value_witness :
    classical_obj_fnc [⟨1, [0], [2, 3]⟩] (fun _ => 1) 0 = some 4 := by
  have h := C2_classical_obj_fnc_value [⟨1, [0], [2, 3]⟩] (fun _ => 1) 0
    (by
      intro e he
      rw [List.mem_singleton.mp he]
      decide)
    (fun i => Or.inl rfl)
  rw [h]
  norm_num [Real.sin_zero, Real.cos_zero]

/-- The objective-term list produced by the pipeline on the one-qubit
Hamiltonian `[(Z, 1)]` with generator `Z` and the single clique
representative `X`: one stored term, whose clique-coefficient list has
length one. -/
theorem params_single_clique_concrete :
    classical_obj_fnc_params [(sZ1, (1 : ℝ))] [sZ1] [sX1] =
      [⟨1, [0], [0]⟩] := by
  have hclosure : G_closure [sZ1] = [(sZ1, [0]), (pid, [])] := by decide
  rw [classical_obj_fnc_params, hclosure]
  have hfind1 : List.find? (fun kv => decide (kv.1 = sZ1)) [(sZ1, (1 : ℝ))] =
      some (sZ1, 1) :=
    List.find?_cons_of_pos _ (by decide)
  have hfind2 : List.find? (fun kv => decide (kv.1 = pmulP sZ1 sX1))
      [(sZ1, (1 : ℝ))] = none := by
    rw [List.find?_cons_of_neg _ (by decide), List.find?_nil]
  have hfind3 : List.find? (fun kv => decide (kv.1 = pid)) [(sZ1, (1 : ℝ))] =
      none := by
    rw [List.find?_cons_of_neg _ (by decide), List.find?_nil]
  have hfind4 : List.find? (fun kv => decide (kv.1 = pmulP pid sX1))
      [(sZ1, (1 : ℝ))] = none := by
    rw [List.find?_cons_of_neg _ (by decide), List.find?_nil]
  have h1 : mkObjTerm [(sZ1, (1 : ℝ))] [sX1] (sZ1, [0]) = ⟨1, [0], [0]⟩ := by
    rw [mkObjTerm]
    have ha : hamCoeff [(sZ1, (1 : ℝ))] sZ1 = 1 := by rw [hamCoeff, hfind1]
    have hb : hamCoeff [(sZ1, (1 : ℝ))] (pmulP sZ1 sX1) = 0 := by
      rw [hamCoeff, hfind2]
    rw [ha]
    show ObjTerm.mk _ _ [hamCoeff [(sZ1, (1 : ℝ))] (pmulP sZ1 sX1)] = _
    rw [hb]
  have h2 : mkObjTerm [(sZ1, (1 : ℝ))] [sX1] (pid, []) = ⟨0, [], [0]⟩ := by
    rw [mkObjTerm]
    have ha : hamCoeff [(sZ1, (1 : ℝ))] pid = 0 := by rw [hamCoeff, hfind3]
    have hb : hamCoeff [(sZ1, (1 : ℝ))] (pmulP pid sX1) = 0 := by
      rw [hamCoeff, hfind4]
    rw [ha]
    show ObjTerm.mk _ _ [hamCoeff [(sZ1, (1 : ℝ))] (pmulP pid sX1)] = _
    rw [hb]
  rw [List.map_cons, List.map_cons, List.map_nil, h1, h2]
  rw [List.filter_cons, List.filter_cons, List.filter_nil]
  rw [if_pos (by simp), if_neg (by simp)]

/-- **C6 (counterexample).**  A decomposition with exactly one clique
representative: evaluating `classical_obj_fnc` on the stored terms of the
one-qubit pipeline `H = [(Z,1)]`, `G = [Z]`, `C = [X]` fails (the access
`h_GCs[1]` is out of range for the length-one clique-coefficient list),
instead of succeeding with a θ-independent value. -/
theorem C6_counterexample :
    classical_obj_fnc (classical_obj_fnc_params [(sZ1, (1 : ℝ))] [sZ1] [sX1])
      (fun _ => 1) 0 = none := by
  rw [params_single_clique_concrete]
  rfl

/-- **C6 (amended).**  When the decomposition has exactly one clique
representative, every stored objective term carries a single clique
coefficient, so `classical_obj_fnc` raises `IndexError` at `h_GCs[1]`
(returns no value) whenever the stored term list is nonempty – it does not
evaluate θ-independently. -/
theorem C6_single_clique_fails {n : ℕ} (Ham : List (PStr n × ℝ))
    (G : List (PStr n)) (c : PStr n) (q : ℕ → ℝ) (t : ℝ)
    (hne : classical_obj_fnc_params Ham G [c] ≠ []) :
    classical_obj_fnc (classical_obj_fnc_params Ham G [c]) q t = none := by
  have hlen : ∀ e ∈ classical_obj_fnc_params Ham G [c], e.hGCs.length = 1 := by
    intro e he
    rw [classical_obj_fnc_params] at he
    obtain ⟨he2, _⟩ := List.mem_filter.mp he
    obtain ⟨entry, _, rfl⟩ := List.mem_map.mp he2
    rfl
  rcases hp : classical_obj_fnc_params Ham G [c] with _ | ⟨e, rest⟩
  · exact absurd hp hne
  · have h1 : e.hGCs.length = 1 :=
      hlen e (by rw [hp]; exact List.mem_cons_self _ _)
    obtain ⟨c0, hcs⟩ : ∃ c0, e.hGCs = [c0] := by
      rcases hl : e.hGCs with _ | ⟨c0, tl⟩
      · rw [hl] at h1; simp at h1
      · rw [hl] at h1
        simp only [List.length_cons, Nat.add_left_eq_self, List.length_eq_zero]
          at h1
        exact ⟨c0, by rw [h1]⟩
    rw [classical_obj_fnc]
    simp only [objSumGo, hcs, List.getElem?_cons_zero, List.getElem?_cons_succ,
      List.getElem?_nil]

/-- Witness for the amended **C6** at the concrete one-clique pipeline
(`q ≡ -1`, `t = 1`). -/
theorem C6_single_clique_fails_witness :
    classical_obj_fnc (classical_obj_fnc_params [(sZ1, (1 : ℝ))] [sZ1] [sX1])
      (fun _ => -1) 1 = none :=
  C6_single_clique_fails [(sZ1, (1 : ℝ))] [sZ1] sX1 (fun _ => -1) 1
    (by rw [params_single_clique_concrete]; simp)

/-- The two-qubit term `XZ`. -/
def pXZ : PStr 2 := ![Pauli.X, Pauli.Z]

/-- The two-qubit term `YI`. -/
def pYI : PStr 2 := ![Pauli.Y, Pauli.I]

/-- The two-qubit term `ZZ` as the product label of `XZ` and `YI`. -/
def pZZ : PStr 2 := ![Pauli.Z, Pauli.Z]

theorem sortStable_pair {α : Type} (le : α → α → Bool) (x y : α) :
    sortStable le [x, y] = if le x y then [x, y] else [y, x] := by
  show insertSorted le x [y] = _
  rw [insertSorted]
  by_cases h : le x y
  · rw [if_pos h, if_pos h]
  · rw [if_neg h, if_neg h, insertSorted]

theorem upr_pair_sort {n : ℕ} (P Q : PStr n) (p q : ℝ) :
    unitary_partitioning_rotation [(P, p), (Q, q)] =
      if countXY P ≤ countXY Q then uprCore P Q p q else uprCore Q P q p := by
  rw [unitary_partitioning_rotation,
    sortStable_pair (fun x y : PStr n × ℝ => decide (countXY x.1 ≤ countXY y.1))]
  by_cases hcnt : countXY P ≤ countXY Q
  · rw [if_pos (decide_eq_true hcnt), if_pos hcnt]
  · rw [if_neg (by simpa using hcnt), if_neg hcnt]

/-- **C7.**  On a two-representative clique operator,
`unitary_partitioning_rotation` raises the degenerate-clique error
(`ValueError('Clique operator already contains one term')`) exactly when one
of the two weights is zero – the check precedes any rotation computation –
and with both weights nonzero it returns a `(Q, t)` pair. -/
theorem C7_rotation_error_iff {n : ℕ} (A B : PStr n) (a b : ℝ) :
    (unitary_partitioning_rotation [(A, a), (B, b)] =
        Except.error PyErr.degenerateClique ↔ (a = 0 ∨ b = 0)) ∧
    (a ≠ 0 → b ≠ 0 → ∃ Q t, unitary_partitioning_rotation [(A, a), (B, b)] =
        Except.ok (Q, t)) := by
  have hcore : ∀ (P R : PStr n) (p r : ℝ),
      (uprCore P R p r = Except.error PyErr.degenerateClique ↔ (p = 0 ∨ r = 0)) ∧
      (¬(p = 0 ∨ r = 0) → ∃ S t, uprCore P R p r = Except.ok (S, t)) := by
    intro P R p r
    rw [uprCore]
    by_cases hpr : p = 0 ∨ r = 0
    · rw [if_pos hpr]
      exact ⟨⟨fun _ => hpr, fun _ => rfl⟩, fun h => absurd hpr h⟩
    · rw [if_neg hpr]
      exact ⟨⟨fun h => absurd h (by simp), fun h => absurd h hpr⟩,
        fun _ => ⟨_, _, rfl⟩⟩
  rw [upr_pair_sort]
  by_cases hcnt : countXY A ≤ countXY B
  · rw [if_pos hcnt]
    obtain ⟨h1, h2⟩ := hcore A B a b
    exact ⟨h1, fun ha hb => h2 (by tauto)⟩
  · rw [if_neg hcnt]
    obtain ⟨h1, h2⟩ := hcore B A b a
    refine ⟨?_, fun ha hb => h2 (by tauto)⟩
    rw [h1]
    tauto

/-- Witness for **C7**: a zero weight raises the degenerate-clique error,
two nonzero weights give a rotation pair. -/
theorem C7_rotation_error_iff_witness :
    unitary_partitioning_rotation [(sZ1, (0 : ℝ)), (sX1, 1)] =
        Except.error PyErr.degenerateClique ∧
    ∃ Q t, unitary_partitioning_rotation [(sZ1, (2 : ℝ)), (sX1, 1)] =
        Except.ok (Q, t) :=
  ⟨(C7_rotation_error_iff sZ1 sX1 0 1).1.mpr (Or.inl rfl),
    (C7_rotation_error_iff sZ1 sX1 2 1).2 (by norm_num) (by norm_num)⟩

/-- **C8 (counterexample).**  On the anticommuting pair `XZ` (weight 2) and
`YI` (weight 3): `YI` has strictly fewer non-identity factors, but the code
sorts by the `X`/`Y` letter count, which ties (both 1), so the stable sort
keeps the input order and uses `a = 2`, the weight of `XZ` – the
representative with **more** non-identity factors.  The returned angle is
`arctan(3/2)`, not the claim's `sign·arctan(−b/a) = −arctan(2/3)` obtained
from `a = 3`. -/
theorem C8_counterexample :
    countNonI pYI < countNonI pXZ ∧ countXY pXZ = countXY pYI ∧
    unitary_partitioning_rotation [(pXZ, (2 : ℝ)), (pYI, 3)] =
      Except.ok (pZZ, Real.arctan (3 / 2)) ∧
    Real.arctan (3 / 2) ≠ -Real.arctan (2 / 3) ∧
    Real.arctan (3 / 2) ≠ Real.arctan (2 / 3) := by
  have harctan_pos : 0 < Real.arctan (3 / 2) := by
    have h := Real.arctan_strictMono (show (0 : ℝ) < 3 / 2 by norm_num)
    rwa [Real.arctan_zero] at h
  refine ⟨by decide, by decide, ?_, ?_, ?_⟩
  · rw [upr_pair_sort, if_pos (by decide), uprCore,
      if_neg (by push_neg; constructor <;> norm_num)]
    have hsign : ((signOf4 (phaseP pXZ pYI) : ℤ) : ℝ) = -1 := by
      rw [show signOf4 (phaseP pXZ pYI) = -1 from by decide]
      push_cast
      ring
    have ht0 : uprAngle pXZ pYI 2 3 = Real.arctan (3 / 2) := by
      rw [uprAngle, hsign, show (-(3 : ℝ) / 2) = -(3 / 2) by norm_num,
        Real.arctan_neg]
      ring
    rw [ht0]
    have hcos : 0 < Real.cos (Real.arctan (3 / 2)) := Real.cos_arctan_pos _
    rw [if_neg (by
      rw [abs_of_pos (by linarith)]
      norm_num
      linarith)]
    have hQ : pmulP pXZ pYI = pZZ := by decide
    rw [hQ]
  · intro h
    have h23 : 0 < Real.arctan (2 / 3) := by
      have h2 := Real.arctan_strictMono (show (0 : ℝ) < 2 / 3 by norm_num)
      rwa [Real.arctan_zero] at h2
    have : -Real.arctan (2 / 3) ≤ 0 := neg_nonpos.mpr (le_of_lt h23)
    linarith [h ▸ harctan_pos]
  · intro h
    have := Real.arctan_injective h
    norm_num at this

/-- **C8 (amended).**  The roles in the rotation are fixed by the `X`/`Y`
letter count of the representatives (not by their total non-identity count):
the representative with the smaller `X`/`Y` count – on ties, the first in
input order (the Python sort is stable) – supplies the weight `a`, the other
supplies `b`, and the rotation is `t = sign·arctan(−b/a)` with the
supplementary-angle correction when `|a + cos t| < 1e-15`. -/
theorem C8_rotation_roles {n : ℕ} (P Q : PStr n) (p q : ℝ) :
    (countXY P ≤ countXY Q →
      unitary_partitioning_rotation [(P, p), (Q, q)] = uprCore P Q p q) ∧
    (countXY Q < countXY P →
      unitary_partitioning_rotation [(P, p), (Q, q)] = uprCore Q P q p) ∧
    (p ≠ 0 → q ≠ 0 → uprCore P Q p q =
      Except.ok (pmulP P Q,
        if |p + Real.cos (Real.arctan (-q / p) *
            ((signOf4 (phaseP P Q) : ℤ) : ℝ))| < 1e-15 then
          Real.arctan (-q / p) * ((signOf4 (phaseP P Q) : ℤ) : ℝ) + Real.pi
        else Real.arctan (-q / p) * ((signOf4 (phaseP P Q) : ℤ) : ℝ))) := by
  have hang : uprAngle P Q p q =
      Real.arctan (-q / p) * ((signOf4 (phaseP P Q) : ℤ) : ℝ) := rfl
  refine ⟨?_, ?_, ?_⟩
  · intro hle
    rw [upr_pair_sort, if_pos hle]
  · intro hlt
    rw [upr_pair_sort, if_neg (not_le.mpr hlt)]
  · intro hp hq
    rw [uprCore, if_neg (by tauto), hang]

/-- Witness for the amended **C8**: with `Z` (no `X`/`Y` letters) first and
`X` second, the roles keep the input order. -/
theorem C8_rotation_roles_witness :
    unitary_partitioning_rotation [(sZ1, (1 : ℝ)), (sX1, 1)] =
      uprCore sZ1 sX1 1 1 :=
  (C8_rotation_roles sZ1 sX1 1 1).1 (by decide)

/-- **C9.**  The claim says multiple compatible eigenstates are reported and
the first is returned; in fact `noncontextual_ground_state` can never reach
that code: it calls `contextual_subspace_hamiltonian` with the keyword
argument `projection_qubits`, which is not a parameter of that method
(its only parameter is `stabilizer_indices`), so every call raises
`TypeError` first. -/
theorem C9_noncontextual_ground_state_type_error :
    "projection_qubits" ∉ contextual_subspace_hamiltonian_params ∧
    ∀ (stabilizer_indices : List ℕ) (projection_qubits : Option (List ℕ))
      (eigenstates : List (List ℕ)),
      noncontextual_ground_state stabilizer_indices projection_qubits
          eigenstates = Except.error PyErr.typeError := by
  refine ⟨by decide, ?_⟩
  intro si pq es
  rw [noncontextual_ground_state.eq_def, if_neg (by decide)]

/-- The tapering state built from the one-qubit Hamiltonian `[(Z, 1)]`,
reference state `[1]` and target single-qubit Pauli `X`. -/
def taperZ : TaperState 1 :=
  { hamiltonian := [(sZ1, (1 : ℝ))]
    ref_state := [1]
    n_qubits := 1
    target_sqp := Pauli.X
    symmetry_ops := identify_symmetry_generators ([(sZ1, (1 : ℝ))].map Prod.fst)
    symmetry_sec := (identify_symmetry_generators
      ([(sZ1, (1 : ℝ))].map Prod.fst)).map fun P => measure_operator P [1]
    n_taper := (identify_symmetry_generators ([(sZ1, (1 : ℝ))].map Prod.fst)).length
    proj :=
      { stabilizers := identify_symmetry_generators ([(sZ1, (1 : ℝ))].map Prod.fst)
        eigenvalues := (identify_symmetry_generators
          ([(sZ1, (1 : ℝ))].map Prod.fst)).map fun P => measure_operator P [1]
        target_sqp := Pauli.X } }

/-- **C10.**  Re-sectoring a tapering instance changes only the inherited
projection state (which now carries the new sector `s`); the fields
`hamiltonian`, `ref_state`, `n_qubits`, `symmetry_ops` and `symmetry_sec`
are untouched – in particular `symmetry_sec` still records the sector
measured from the original reference state, not `s`. -/
theorem C10_update_S3_projection_frame {n : ℕ} (ham : List (PStr n × ℝ))
    (ref : List ℕ) (sqp : Pauli) (st : TaperState n) (s : List ℤ)
    (h : mkTapering ham ref sqp = some st) :
    (update_S3_projection st s).hamiltonian = st.hamiltonian ∧
    (update_S3_projection st s).ref_state = st.ref_state ∧
    (update_S3_projection st s).n_qubits = st.n_qubits ∧
    (update_S3_projection st s).symmetry_ops = st.symmetry_ops ∧
    (update_S3_projection st s).symmetry_sec = st.symmetry_sec ∧
    (update_S3_projection st s).symmetry_sec =
      st.symmetry_ops.map (fun P => measure_operator P ref) ∧
    (update_S3_projection st s).proj =
      ⟨st.symmetry_ops, s, st.target_sqp⟩ := by
  have hsec : st.symmetry_sec =
      st.symmetry_ops.map (fun P => measure_operator P ref) := by
    rw [mkTapering] at h
    by_cases hl : ref.length = n
    · rw [if_pos hl] at h
      cases Option.some.inj h
      rfl
    · rw [if_neg hl] at h
      exact absurd h (by simp)
  exact ⟨rfl, rfl, rfl, rfl, rfl, hsec, rfl⟩

/-- Witness for **C10** on the concrete one-qubit tapering instance,
re-sectored to `[-1]`. -/
theorem C10_update_S3_projection_frame_witness :
    (update_S3_projection taperZ [-1]).symmetry_sec = taperZ.symmetry_sec ∧
    (update_S3_projection taperZ [-1]).proj =
      ⟨taperZ.symmetry_ops, [-1], taperZ.target_sqp⟩ :=
  ⟨(C10_update_S3_projection_frame [(sZ1, (1 : ℝ))] [1] Pauli.X taperZ [-1]
      rfl).2.2.2.2.1,
    (C10_update_S3_projection_frame [(sZ1, (1 : ℝ))] [1] Pauli.X taperZ [-1]
      rfl).2.2.2.2.2.2⟩

theorem combos_mem {α : Type} :
    ∀ (l : List α) (i : ℕ) (s : List α),
      s ∈ combos i l ↔ s.Sublist l ∧ s.length = i := by
  intro l
  induction l with
  | nil =>
    intro i s
    cases i with
    | zero =>
      simp only [combos, List.mem_singleton]
      constructor
      · rintro rfl
        exact ⟨List.Sublist.refl _, rfl⟩
      · rintro ⟨_, hlen⟩
        exact List.length_eq_zero.mp hlen
    | succ i =>
      simp only [combos, List.not_mem_nil, false_iff, not_and]
      intro hs
      have h1 := hs.length_le
      simp only [List.length_nil, Nat.le_zero] at h1
      omega
  | cons x xs ih =>
    intro i s
    cases i with
    | zero =>
      simp only [combos, List.mem_singleton]
      constructor
      · rintro rfl
        exact ⟨List.nil_sublist _, rfl⟩
      · rintro ⟨_, hlen⟩
        exact List.length_eq_zero.mp hlen
    | succ i =>
      rw [combos, List.mem_append, List.mem_map]
      constructor
      · rintro (⟨t, ht, rfl⟩ | h)
        · obtain ⟨hts, htl⟩ := (ih i t).mp ht
          exact ⟨List.cons_sublist_cons.mpr hts, by simp [htl]⟩
        · obtain ⟨hts, htl⟩ := (ih (i + 1) s).mp h
          exact ⟨List.Sublist.cons x hts, htl⟩
      · rintro ⟨hs, hlen⟩
        rcases List.sublist_cons_iff.mp hs with h | ⟨r, rfl, hr⟩
        · exact Or.inr ((ih (i + 1) s).mpr ⟨h, hlen⟩)
        · exact Or.inl ⟨r, (ih i r).mpr ⟨hr, by simpa using hlen⟩, rfl⟩

theorem combos_nodup {α : Type} :
    ∀ (l : List α), l.Nodup → ∀ i, (combos i l).Nodup := by
  intro l
  induction l with
  | nil =>
    intro _ i
    cases i with
    | zero => exact List.nodup_singleton _
    | succ i => exact List.nodup_nil
  | cons x xs ih =>
    intro hnd i
    have hx : x ∉ xs := (List.nodup_cons.mp hnd).1
    have hxs : xs.Nodup := (List.nodup_cons.mp hnd).2
    cases i with
    | zero => exact List.nodup_singleton _
    | succ i =>
      rw [combos]
      refine List.Nodup.append ?_ (ih hxs (i + 1)) ?_
      · refine List.Nodup.map ?_ (ih hxs i)
        intro t1 t2 h
        injection h
      · intro s hs1 hs2
        obtain ⟨t, _, rfl⟩ := List.mem_map.mp hs1
        obtain ⟨hsub, _⟩ := (combos_mem xs (i + 1) (x :: t)).mp hs2
        exact hx (hsub.subset (List.mem_cons_self x t))

theorem combos_length {α : Type} :
    ∀ (l : List α) (i : ℕ), (combos i l).length = l.length.choose i := by
  intro l
  induction l with
  | nil =>
    intro i
    cases i with
    | zero => rfl
    | succ i => rfl
  | cons x xs ih =>
    intro i
    cases i with
    | zero => rfl
    | succ i =>
      rw [combos, List.length_append, List.length_map, ih i, ih (i + 1),
        List.length_cons, Nat.choose_succ_succ]

theorem list_range_map_sum (m : ℕ) (f : ℕ → ℕ) :
    ((List.range m).map f).sum = ∑ i ∈ Finset.range m, f i := by
  induction m with
  | zero => rfl
  | succ m ih =>
    rw [List.range_succ, List.map_append, List.sum_append, Finset.sum_range_succ,
      ih]
    simp

theorem G_closure_length {n : ℕ} (G : List (PStr n)) :
    (G_closure G).length = 2 ^ G.length := by
  rw [G_closure, List.length_append, List.length_map, G_combs,
    List.length_flatten, List.map_map]
  have hcongr : ((List.range G.length).map
      (List.length ∘ fun i => combos (i + 1) G)) =
      (List.range G.length).map fun i => G.length.choose (i + 1) := by
    refine List.map_congr_left ?_
    intro i _
    exact combos_length G (i + 1)
  rw [hcongr, list_range_map_sum]
  have h3 := Nat.sum_range_choose G.length
  rw [Finset.sum_range_succ', Nat.choose_zero_right] at h3
  have h4 : 1 ≤ 2 ^ G.length := Nat.one_le_two_pow
  simp only [List.length_singleton]
  omega

theorem G_closure_getLast {n : ℕ} (G : List (PStr n)) :
    (G_closure G).getLast? = some (pid, []) := by
  rw [G_closure, List.getLast?_concat]

theorem idxOf_getD {α : Type} [DecidableEq α] (d : α) :
    ∀ (l : List α) (a : α), a ∈ l → l.getD (idxOf l a) d = a := by
  intro l
  induction l with
  | nil => intro a ha; simp at ha
  | cons x xs ih =>
    intro a ha
    rw [idxOf]
    by_cases hxa : x = a
    · rw [if_pos hxa, List.getD_cons_zero]
      exact hxa
    · rw [if_neg hxa, List.getD_cons_succ]
      refine ih a ?_
      rcases List.mem_cons.mp ha with rfl | h
      · exact absurd rfl hxa
      · exact h

theorem idxOf_getD_self {α : Type} [DecidableEq α] (d : α) :
    ∀ (l : List α), l.Nodup → ∀ i, i < l.length → idxOf l (l.getD i d) = i := by
  intro l
  induction l with
  | nil => intro _ i hi; simp at hi
  | cons x xs ih =>
    intro hnd i hi
    cases i with
    | zero => rw [List.getD_cons_zero, idxOf, if_pos rfl]
    | succ i =>
      have hilt : i < xs.length := by simpa using hi
      rw [List.getD_cons_succ, idxOf]
      have hmem : xs.getD i d ∈ xs := by
        rw [List.getD_eq_getElem xs d hilt]
        exact List.getElem_mem _
      have hx : x ∉ xs := (List.nodup_cons.mp hnd).1
      have hneq : ¬ x = xs.getD i d := fun heq => hx (by rw [heq]; exact hmem)
      rw [if_neg hneq, ih (List.nodup_cons.mp hnd).2 i hilt]

theorem map_idxOf_range {n : ℕ} (G : List (PStr n)) (hnd : G.Nodup) :
    G.map (idxOf G) = List.range G.length := by
  refine List.ext_getElem (by simp) ?_
  intro i h1 h2
  rw [List.getElem_map, List.getElem_range]
  have h3 := idxOf_getD_self pid G hnd i (by simpa using h1)
  rwa [List.getD_eq_getElem G pid (by simpa using h1)] at h3

theorem map_getD_range {n : ℕ} (G : List (PStr n)) :
    (List.range G.length).map (fun i => G.getD i pid) = G := by
  refine List.ext_getElem (by simp) ?_
  intro i h1 h2
  rw [List.getElem_map, List.getElem_range]
  exact List.getD_eq_getElem G pid h2

theorem comb_recover {n : ℕ} (G : List (PStr n)) (comb : List (PStr n))
    (hsub : ∀ a ∈ comb, a ∈ G) :
    (comb.map (idxOf G)).map (fun i => G.getD i pid) = comb := by
  rw [List.map_map]
  have h : comb.map ((fun i => G.getD i pid) ∘ idxOf G) = comb.map id :=
    List.map_congr_left fun a ha => idxOf_getD pid G a (hsub a ha)
  rw [h, List.map_id]

theorem mem_G_combs {n : ℕ} (G : List (PStr n)) (comb : List (PStr n)) :
    comb ∈ G_combs G ↔ comb.Sublist G ∧ comb ≠ [] := by
  rw [G_combs, List.mem_flatten]
  constructor
  · rintro ⟨lis, hlis, hcomb⟩
    obtain ⟨i, _, rfl⟩ := List.mem_map.mp hlis
    obtain ⟨hsub, hlen⟩ := (combos_mem G (i + 1) comb).mp hcomb
    refine ⟨hsub, ?_⟩
    intro h
    rw [h] at hlen
    simp at hlen
  · rintro ⟨hsub, hne⟩
    have h1 : 1 ≤ comb.length := List.length_pos.mpr hne
    have h2 : comb.length ≤ G.length := hsub.length_le
    refine ⟨combos comb.length G, ?_,
      (combos_mem G comb.length comb).mpr ⟨hsub, rfl⟩⟩
    refine List.mem_map.mpr ⟨comb.length - 1, ?_, ?_⟩
    · rw [List.mem_range]
      omega
    · congr 1
      omega

theorem G_combs_nodup {n : ℕ} (G : List (PStr n)) (hnd : G.Nodup) :
    (G_combs G).Nodup := by
  rw [G_combs, List.nodup_flatten]
  constructor
  · intro l hl
    obtain ⟨i, _, rfl⟩ := List.mem_map.mp hl
    exact combos_nodup G hnd (i + 1)
  · rw [List.pairwise_map]
    refine (List.pairwise_lt_range _).imp ?_
    intro i j hij
    intro s hsi hsj
    obtain ⟨_, hli⟩ := (combos_mem G (i + 1) s).mp hsi
    obtain ⟨_, hlj⟩ := (combos_mem G (j + 1) s).mp hsj
    omega

theorem G_closure_entries {n : ℕ} (G : List (PStr n)) (hnd : G.Nodup) :
    ∀ e ∈ G_closure G, e.1 = pmulList (e.2.map fun i => G.getD i pid) ∧
      e.2.Sublist (List.range G.length) := by
  intro e he
  rw [G_closure] at he
  rcases List.mem_append.mp he with h | h
  · obtain ⟨comb, hcomb, rfl⟩ := List.mem_map.mp h
    obtain ⟨hsub, _⟩ := (mem_G_combs G comb).mp hcomb
    constructor
    · show pmulList comb =
        pmulList ((comb.map (idxOf G)).map fun i => G.getD i pid)
      rw [comb_recover G comb fun a ha => hsub.subset ha]
    · show (comb.map (idxOf G)).Sublist (List.range G.length)
      have h2 := hsub.map (idxOf G)
      rwa [map_idxOf_range G hnd] at h2
  · rw [List.mem_singleton] at h
    rw [h]
    exact ⟨rfl, List.nil_sublist _⟩

theorem G_closure_snd_complete {n : ℕ} (G : List (PStr n)) (hnd : G.Nodup)
    (s : List ℕ) (hs : s.Sublist (List.range G.length)) :
    s ∈ (G_closure G).map Prod.snd := by
  rw [G_closure, List.map_append]
  rcases eq_or_ne s [] with rfl | hne
  · exact List.mem_append.mpr (Or.inr (by simp))
  · refine List.mem_append.mpr (Or.inl ?_)
    rw [List.map_map]
    refine List.mem_map.mpr ⟨s.map fun i => G.getD i pid, ?_, ?_⟩
    · rw [mem_G_combs]
      constructor
      · have h2 := hs.map fun i => G.getD i pid
        rwa [map_getD_range] at h2
      · intro h
        exact hne (List.map_eq_nil_iff.mp h)
    · show (s.map fun i => G.getD i pid).map (idxOf G) = s
      rw [List.map_map]
      have h3 : s.map (idxOf G ∘ fun i => G.getD i pid) = s.map id := by
        refine List.map_congr_left ?_
        intro i hi
        have himem : i ∈ List.range G.length := hs.subset hi
        rw [List.mem_range] at himem
        exact idxOf_getD_self pid G hnd i himem
      rw [h3, List.map_id]

theorem G_closure_snd_nodup {n : ℕ} (G : List (PStr n)) (hnd : G.Nodup) :
    ((G_closure G).map Prod.snd).Nodup := by
  rw [G_closure, List.map_append, List.map_map, List.map_singleton]
  refine List.Nodup.append ?_ (List.nodup_singleton _) ?_
  · refine List.Nodup.map_on ?_ (G_combs_nodup G hnd)
    intro c1 h1 c2 h2 heq
    have hs1 := ((mem_G_combs G c1).mp h1).1
    have hs2 := ((mem_G_combs G c2).mp h2).1
    have h4 := congrArg (List.map fun i => G.getD i pid) heq
    show c1 = c2
    rwa [show (Prod.snd ∘ fun comb => (pmulList comb, comb.map (idxOf G))) c1 =
        c1.map (idxOf G) from rfl,
      show (Prod.snd ∘ fun comb => (pmulList comb, comb.map (idxOf G))) c2 =
        c2.map (idxOf G) from rfl,
      comb_recover G c1 fun a ha => hs1.subset ha,
      comb_recover G c2 fun a ha => hs2.subset ha] at h4
  · intro s hs1 hs2
    rw [List.mem_singleton] at hs2
    obtain ⟨comb, hcomb, heq⟩ := List.mem_map.mp hs1
    rw [hs2] at heq
    exact ((mem_G_combs G comb).mp hcomb).2 (List.map_eq_nil_iff.mp heq)

/-- **C4.**  With `m` distinct generators: the closure enumerates the
products of all `2^m − 1` nonempty subsets of `G` (each exactly once, with
the exact increasing list of generator indices that produced it), appends
the all-identity term with an empty index set (and so has `2^m` entries,
the last being the identity); a label absent from the Hamiltonian gets
coefficient `0`; and the stored objective terms are exactly the closure
entries whose direct coefficient is nonzero or that have a nonzero
clique-product coefficient. -/
theorem C4_classical_obj_fnc_params {n : ℕ} (Ham : List (PStr n × ℝ))
    (G C : List (PStr n)) (hnd : G.Nodup) :
    (G_closure G).length = 2 ^ G.length ∧
    (G_closure G).getLast? = some (pid, []) ∧
    (∀ e ∈ G_closure G, e.1 = pmulList (e.2.map fun i => G.getD i pid) ∧
      e.2.Sublist (List.range G.length)) ∧
    (∀ s : List ℕ, s.Sublist (List.range G.length) →
      s ∈ (G_closure G).map Prod.snd) ∧
    ((G_closure G).map Prod.snd).Nodup ∧
    (∀ op : PStr n, (∀ kv ∈ Ham, kv.1 ≠ op) → hamCoeff Ham op = 0) ∧
    classical_obj_fnc_params Ham G C =
      ((G_closure G).map (mkObjTerm Ham C)).filter
        (fun t => decide (t.hG ≠ 0 ∨ ∃ c ∈ t.hGCs, c ≠ 0)) := by
  refine ⟨G_closure_length G, G_closure_getLast G, G_closure_entries G hnd,
    fun s hs => G_closure_snd_complete G hnd s hs, G_closure_snd_nodup G hnd,
    ?_, rfl⟩
  intro op hop
  rw [hamCoeff, show List.find? (fun kv => decide (kv.1 = op)) Ham = none from
    List.find?_eq_none.mpr fun kv hkv => by simpa using hop kv hkv]

/-- Witness for **C4** on the single generator `[Z]` over one qubit:
the closure has `2^1` entries and ends with the identity. -/
theorem C4_classical_obj_fnc_params_witness :
    (G_closure [sZ1]).length = 2 ^ (1 : ℕ) ∧
    (G_closure [sZ1]).getLast? = some (pid, []) :=
  ⟨(C4_classical_obj_fnc_params [(sZ1, (1 : ℝ))] [sZ1] [sX1] (by decide)).1,
    (C4_classical_obj_fnc_params [(sZ1, (1 : ℝ))] [sZ1] [sX1] (by decide)).2.1⟩

end Qondense
